import Mathlib

set_option autoImplicit false
set_option maxHeartbeats 1000000

/-!
Verification of the COSE474 homework code (hw4.py, hw7.py) against its
natural-language specification.

The hw4 part models pytorch tensors in exact rational arithmetic: a tensor
is a shape together with a row-major flat data function, a strided view is
a shape, a stride list and a base data function, exactly as produced by
`torch.as_strided`.  Errors raised by the Python code are modelled with an
explicit error type returned through `Except`.
-/

/-! ### Row-major tensors and strided views -/

/-- Kind of Python exception raised by `view_as_windows` (hw4.py lines 16-47),
one constructor per raise site.  `typeError` is the `TypeError` of line 17;
every other constructor is a `ValueError`: `windowIncompat` (line 24),
`stepLt1` (line 28), `stepIncompat` (line 31), `windowTooLarge` (line 37),
`windowTooSmall` (line 40), and `sliceStep` for the `ValueError` that the
slicing `arr_in[slices]` at line 47 raises when some slice step is not
positive. -/
inductive PyErr where
  | typeError
  | windowIncompat
  | stepLt1
  | stepIncompat
  | windowTooLarge
  | windowTooSmall
  | sliceStep
deriving DecidableEq, Repr

/-- Whether the raised exception is a Python `ValueError` (every raise site of
`view_as_windows` except the line-17 `TypeError`). -/
def PyErr.isValueError : PyErr → Bool
  | .typeError => false
  | _ => true

/-- A pytorch tensor: a shape and row-major flat data.  Entries are exact
rationals standing for the float values. -/
structure Tensor where
  shape : List ℕ
  flat : ℕ → ℚ

/-- Contiguous row-major strides of a shape: the stride of a dimension is the
product of all later extents (what `torch.Tensor.stride()` returns for a
contiguous tensor, used at hw4.py lines 45 and 47). -/
def cstrides : List ℕ → List ℕ
  | [] => []
  | _ :: ds => ds.prod :: cstrides ds

/-- Dot product of a multi-index with a stride list. -/
def dot : List ℕ → List ℕ → ℕ
  | i :: is, s :: ss => i * s + dot is ss
  | _, _ => 0

/-- Row-major flat offset of a multi-index in a shape. -/
def encode : List ℕ → List ℕ → ℕ
  | _ :: ds, i :: is => i * ds.prod + encode ds is
  | _, _ => 0

/-- Multi-index of a row-major flat position in a shape: component `k` is
`(n / stride k) % extent k`. -/
def decode : List ℕ → ℕ → List ℕ
  | [], _ => []
  | d :: ds, n => ((n / ds.prod) % d) :: decode ds n

/-- Element of a tensor at a multi-index (row-major). -/
def Tensor.elem (t : Tensor) (ix : List ℕ) : ℚ :=
  t.flat (encode t.shape ix)

/-- Result of `torch.as_strided(base, size, stride)` (hw4.py line 55): a view
with its own shape and stride list over the base tensor's flat data. -/
structure StridedView where
  shape : List ℕ
  stride : List ℕ
  flat : ℕ → ℚ

/-- Element of a strided view at a multi-index: base data at the dot product
of the index with the stride list (the `as_strided` addressing rule). -/
def StridedView.elem (v : StridedView) (ix : List ℕ) : ℚ :=
  v.flat (dot ix v.stride)

/-- A contiguous tensor seen as a strided view of itself. -/
def asView (t : Tensor) : StridedView :=
  ⟨t.shape, cstrides t.shape, t.flat⟩

/-- Logical element of a view at a row-major flat position; `torch.reshape`
enumerates a (possibly non-contiguous) view in exactly this order. -/
def elemAt (v : StridedView) (n : ℕ) : ℚ :=
  v.elem (decode v.shape n)

/-- Argument that may be a Python scalar number or a tuple (the
`window_shape` and `step` arguments of `view_as_windows`). -/
inductive Arg where
  | num (z : ℤ)
  | tup (l : List ℤ)

/-- First argument of `view_as_windows`: either a pytorch tensor or any other
Python object (rejected with `TypeError` at hw4.py line 17). -/
inductive PyVal where
  | tensor (t : Tensor)
  | nonTensor

/-- Resolution of a scalar-or-tuple argument against the input rank: a scalar
is broadcast to a tuple of length `ndim` (hw4.py lines 21-22 and 26-29), a
tuple is taken as given. -/
def resolveArg (n : ℕ) : Arg → List ℤ
  | .num z => List.replicate n z
  | .tup l => l

/-- Embedding of `view_as_windows(arr_in, window_shape, step)`
(hw4.py lines 14-56).  Checks follow the source order: tensor check, scalar
broadcast and length check of `window_shape`, scalar step positivity and
broadcast, step length check, window-too-large check, window-too-small
check; then the rolling view is built from `as_strided` with the window
position strides (contiguous strides scaled by the steps, the strides of
`arr_in[slices]` at line 47) followed by the window-interior strides
(the contiguous strides of `arr_in`).  A non-positive step in a step tuple
passes every explicit check and instead makes the slicing `arr_in[slices]`
at line 47 raise a `ValueError`, modelled by `PyErr.sliceStep`. -/
def view_as_windows (arr_in : PyVal) (window_shape : Arg) (step : Arg) :
    Except PyErr StridedView :=
  match arr_in with
  | .nonTensor => .error .typeError
  | .tensor t =>
    let ndim := t.shape.length
    let ws : List ℤ := resolveArg ndim window_shape
    if ws.length ≠ ndim then .error .windowIncompat
    else
      let build : List ℤ → Except PyErr StridedView := fun st =>
        if st.length ≠ ndim then .error .stepIncompat
        else if (List.zipWith (fun (a : ℕ) (w : ℤ) => (a : ℤ) - w) t.shape ws).any
            (fun z => decide (z < 0)) then .error .windowTooLarge
        else if ws.any (fun w => decide (w - 1 < 0)) then .error .windowTooSmall
        else if st.any (fun z => decide (z < 1)) then .error .sliceStep
        else
          let wsN := ws.map Int.toNat
          let stN := st.map Int.toNat
          let istr := List.zipWith (· * ·) (cstrides t.shape) stN
          let win := List.zipWith (fun (aw : ℕ × ℕ) s => (aw.1 - aw.2) / s + 1)
            (t.shape.zip wsN) stN
          .ok ⟨win ++ wsN, istr ++ cstrides t.shape, t.flat⟩
      match step with
      | .num z => if z < 1 then .error .stepLt1 else build (List.replicate ndim z)
      | .tup l => build l

/-- Error component of an `Except` result, `none` on success. -/
def errOf {α : Type} : Except PyErr α → Option PyErr
  | .error e => some e
  | .ok _ => none

/-! ### Index arithmetic for row-major addressing -/

theorem cstrides_length (s : List ℕ) : (cstrides s).length = s.length := by
  induction s with
  | nil => rfl
  | cons d ds ih => simp [cstrides, ih]

theorem dot_cstrides (s ix : List ℕ) : dot ix (cstrides s) = encode s ix := by
  induction s generalizing ix with
  | nil => cases ix <;> rfl
  | cons d ds ih =>
    cases ix with
    | nil => rfl
    | cons i is => simp [cstrides, dot, encode, ih]

theorem dot_append {a c : List ℕ} (b d : List ℕ) (h : a.length = c.length) :
    dot (a ++ b) (c ++ d) = dot a c + dot b d := by
  induction a generalizing c with
  | nil =>
    cases c with
    | nil => simp [dot]
    | cons x xs => exact absurd h (by simp)
  | cons x xs ih =>
    cases c with
    | nil => exact absurd h (by simp)
    | cons y ys =>
      have h2 := ih (c := ys) (by simpa using h)
      show x * y + dot (xs ++ b) (ys ++ d) = x * y + dot xs ys + dot b d
      rw [h2]; ring

theorem encode_lt {s ix : List ℕ} (h : List.Forall₂ (· < ·) ix s) :
    encode s ix < s.prod := by
  induction h with
  | nil => simp [encode]
  | @cons i d is ds hid _ ih =>
    simp only [encode, List.prod_cons]
    calc i * ds.prod + encode ds is < i * ds.prod + ds.prod := by omega
    _ = (i + 1) * ds.prod := by ring
    _ ≤ d * ds.prod := Nat.mul_le_mul_right _ (by omega)

theorem decode_add_mul (ds : List ℕ) (n m : ℕ) :
    decode ds (n + m * ds.prod) = decode ds n := by
  induction ds generalizing m with
  | nil => rfl
  | cons d ds ih =>
    rcases Nat.eq_zero_or_pos ds.prod with hp | hp
    · simp [List.prod_cons, hp]
    · have hstep : n + m * (d :: ds).prod = n + m * d * ds.prod := by
        simp [List.prod_cons]; ring
      simp only [decode, hstep]
      congr 1
      · rw [Nat.add_mul_div_right _ _ hp, Nat.add_mul_mod_self_right]
      · exact ih (m * d)

theorem decode_encode {s ix : List ℕ} (h : List.Forall₂ (· < ·) ix s) :
    decode s (encode s ix) = ix := by
  induction h with
  | nil => rfl
  | @cons i d is ds hid htail ih =>
    have he : encode ds is < ds.prod := encode_lt htail
    have hp : 0 < ds.prod := Nat.pos_of_ne_zero (by omega)
    simp only [encode, decode]
    congr 1
    · rw [Nat.add_comm, Nat.add_mul_div_right _ _ hp,
        Nat.div_eq_of_lt he, Nat.zero_add, Nat.mod_eq_of_lt hid]
    · rw [Nat.add_comm, decode_add_mul ds (encode ds is) i, ih]

theorem mod_mul_decomp (n d P : ℕ) :
    (n / P % d) * P + n % P = n % (d * P) := by
  rcases Nat.eq_zero_or_pos P with hP | hP
  · rw [hP]; simp
  · rcases Nat.eq_zero_or_pos d with hd | hd
    · rw [hd, Nat.mod_zero, Nat.zero_mul, Nat.mod_zero, Nat.add_comm,
        Nat.mod_add_div']
    · have hsplit : n = (d * P) * (n / P / d) + ((n / P % d) * P + n % P) := by
        conv_lhs => rw [← Nat.div_add_mod n P]
        conv_lhs => rw [← Nat.div_add_mod (n / P) d]
        ring
      have hlt : (n / P % d) * P + n % P < d * P := by
        have h1 : n / P % d < d := Nat.mod_lt _ hd
        have h2 : n % P < P := Nat.mod_lt _ hP
        calc (n / P % d) * P + n % P < (n / P % d) * P + P := by omega
          _ = (n / P % d + 1) * P := by ring
          _ ≤ d * P := Nat.mul_le_mul_right _ (by omega)
      conv_rhs => rw [hsplit]
      rw [Nat.mul_add_mod, Nat.mod_eq_of_lt hlt]

theorem encode_decode (s : List ℕ) (n : ℕ) :
    encode s (decode s n) = n % s.prod := by
  induction s generalizing n with
  | nil => simp [decode, encode, Nat.mod_one]
  | cons d ds ih =>
    simp only [decode, encode, ih, List.prod_cons]
    exact mod_mul_decomp n d ds.prod

theorem decode_mod (s : List ℕ) (n : ℕ) :
    decode s (n % s.prod) = decode s n := by
  have h := Nat.div_add_mod n s.prod
  calc decode s (n % s.prod)
      = decode s (n % s.prod + (n / s.prod) * s.prod) := (decode_add_mul _ _ _).symm
    _ = decode s n := by rw [Nat.add_comm, Nat.mul_comm, h]

/-! ### The rolling-window view: success case and element formula -/

theorem any_eq_false_of {α : Type} {l : List α} {p : α → Bool}
    (h : ∀ x ∈ l, p x = false) : l.any p = false := by
  induction l with
  | nil => rfl
  | cons a l ih =>
    simp only [List.any_cons, h a (by simp), Bool.false_or]
    exact ih fun x hx => h x (by simp [hx])

theorem tooLarge_check_false {wsN shape : List ℕ}
    (h : List.Forall₂ (· ≤ ·) wsN shape) :
    (List.zipWith (fun (a : ℕ) (w : ℤ) => (a : ℤ) - w) shape
      (wsN.map Int.ofNat)).any (fun z => decide (z < 0)) = false := by
  induction h with
  | nil => rfl
  | @cons w a ws as hwa _ ih =>
    simp only [List.map_cons, List.zipWith_cons_cons, List.any_cons, ih,
      Bool.or_false, decide_eq_false_iff_not, not_lt, Int.ofNat_eq_natCast]
    omega

theorem zipWin_length (shape wsN stN : List ℕ) :
    (List.zipWith (fun (aw : ℕ × ℕ) s => (aw.1 - aw.2) / s + 1)
      (shape.zip wsN) stN).length = min (min shape.length wsN.length) stN.length := by
  simp [List.length_zipWith]

/-- Success case of `view_as_windows` on a tensor with tuple arguments: when
the window fits, every window extent is at least 1 and every step is at
least 1, the result is the `as_strided` view whose shape is the window
position counts followed by the window extents, and whose strides are the
step-scaled contiguous strides followed by the contiguous strides. -/
theorem view_as_windows_ok (t : Tensor) (wsN stN : List ℕ)
    (hls : stN.length = t.shape.length)
    (hw1 : ∀ w ∈ wsN, 1 ≤ w)
    (hwle : List.Forall₂ (· ≤ ·) wsN t.shape)
    (hs1 : ∀ z ∈ stN, 1 ≤ z) :
    view_as_windows (.tensor t) (.tup (wsN.map Int.ofNat))
        (.tup (stN.map Int.ofNat)) =
      .ok ⟨(List.zipWith (fun (aw : ℕ × ℕ) s => (aw.1 - aw.2) / s + 1)
              (t.shape.zip wsN) stN) ++ wsN,
           (List.zipWith (· * ·) (cstrides t.shape) stN) ++ cstrides t.shape,
           t.flat⟩ := by
  have hlw : wsN.length = t.shape.length := hwle.length_eq
  have hbig := tooLarge_check_false hwle
  have hsmall : (wsN.map Int.ofNat).any (fun w => decide (w - 1 < 0)) = false := by
    refine any_eq_false_of fun x hx => ?_
    simp only [List.mem_map] at hx
    obtain ⟨w, hw, rfl⟩ := hx
    have := hw1 w hw
    simp only [decide_eq_false_iff_not, not_lt, Int.ofNat_eq_natCast]
    omega
  have hstep : (stN.map Int.ofNat).any (fun z => decide (z < 1)) = false := by
    refine any_eq_false_of fun x hx => ?_
    simp only [List.mem_map] at hx
    obtain ⟨z, hz, rfl⟩ := hx
    have := hs1 z hz
    simp only [decide_eq_false_iff_not, not_lt, Int.ofNat_eq_natCast]
    omega
  simp only [view_as_windows, resolveArg, List.length_map, hlw, hls,
    ne_eq, not_true_eq_false, if_false, ite_not, hbig, hsmall, hstep,
    Bool.false_eq_true, if_true, List.map_map]
  have hcollapse : ∀ l : List ℕ, l.map (Int.toNat ∘ Int.ofNat) = l := by
    intro l
    simp [Function.comp_def]
  rw [hcollapse, hcollapse]

theorem dot_zip_split (cs ix st jx : List ℕ)
    (h1 : ix.length = cs.length) (h2 : st.length = cs.length)
    (h3 : jx.length = cs.length) :
    dot (List.zipWith (fun (p : ℕ × ℕ) j => p.1 * p.2 + j) (ix.zip st) jx) cs
      = dot ix (List.zipWith (· * ·) cs st) + dot jx cs := by
  induction cs generalizing ix st jx with
  | nil =>
    have hz : ∀ l : List ℕ, dot l [] = 0 := fun l => by cases l <;> rfl
    simp [hz]
  | cons c cs ih =>
    cases ix with
    | nil => exact absurd h1 (by simp)
    | cons i ixs =>
      cases st with
      | nil => exact absurd h2 (by simp)
      | cons s sts =>
        cases jx with
        | nil => exact absurd h3 (by simp)
        | cons j jxs =>
          have h4 := ih ixs sts jxs (by simpa using h1) (by simpa using h2)
            (by simpa using h3)
          simp only [List.zip_cons_cons, List.zipWith_cons_cons, dot]
          rw [show ixs.zip sts = List.zipWith Prod.mk ixs sts from rfl] at h4
          rw [h4]
          ring

/-- C4: for a tensor and a valid tuple `(window_shape, step)`, the rolling
view succeeds, its shape is the per-dimension position count
`(extent - window) / step + 1` followed by the window extents, and its
element at multi-index `ix ++ jx` is the input element at multi-index
`ix * step + jx` componentwise, i.e. the window at `ix` is exactly the
sub-block of the input starting at `ix * step`. -/
theorem view_as_windows_elem (t : Tensor) (wsN stN ix jx : List ℕ)
    (hls : stN.length = t.shape.length)
    (hw1 : ∀ w ∈ wsN, 1 ≤ w)
    (hwle : List.Forall₂ (· ≤ ·) wsN t.shape)
    (hs1 : ∀ z ∈ stN, 1 ≤ z)
    (hixb : List.Forall₂ (· < ·) ix
      (List.zipWith (fun (aw : ℕ × ℕ) s => (aw.1 - aw.2) / s + 1)
        (t.shape.zip wsN) stN))
    (hjxb : List.Forall₂ (· < ·) jx wsN) :
    ∃ v, view_as_windows (.tensor t) (.tup (wsN.map Int.ofNat))
          (.tup (stN.map Int.ofNat)) = .ok v
      ∧ v.shape = (List.zipWith (fun (aw : ℕ × ℕ) s => (aw.1 - aw.2) / s + 1)
          (t.shape.zip wsN) stN) ++ wsN
      ∧ v.elem (ix ++ jx)
          = t.elem (List.zipWith (fun (p : ℕ × ℕ) j => p.1 * p.2 + j)
              (ix.zip stN) jx) := by
  have hlw : wsN.length = t.shape.length := hwle.length_eq
  have hok := view_as_windows_ok t wsN stN hls hw1 hwle hs1
  refine ⟨_, hok, rfl, ?_⟩
  have hixl : ix.length = t.shape.length := by
    have := hixb.length_eq
    rw [this, zipWin_length, hlw, hls]
    simp
  have hjxl : jx.length = t.shape.length := by rw [hjxb.length_eq, hlw]
  have histr : ix.length
      = (List.zipWith (· * ·) (cstrides t.shape) stN).length := by
    rw [List.length_zipWith, cstrides_length, hls, hixl]
    simp
  show t.flat (dot (ix ++ jx)
      ((List.zipWith (· * ·) (cstrides t.shape) stN) ++ cstrides t.shape)) = _
  rw [dot_append _ _ histr]
  rw [Tensor.elem, ← dot_cstrides]
  rw [dot_zip_split (cstrides t.shape) ix stN jx
    (by rw [hixl, cstrides_length]) (by rw [hls, cstrides_length])
    (by rw [hjxl, cstrides_length])]

/-- One-dimensional tensor holding `[0, 1, 2, 3, 4]`. -/
def x5 : Tensor := ⟨[5], fun n => (n : ℚ)⟩

/-- Witness for C4: the window view on `[0,1,2,3,4]` with `window_shape = 3`,
`step = 1` has shape `(3, 3)`, its element at `(1, 2)` is the input element
at `1*1 + 2 = 3`, and the full view is `[[0,1,2],[1,2,3],[2,3,4]]` (the
element at `(i, j)` is `i + j`). -/
theorem view_as_windows_elem_witness :
    ∃ v, view_as_windows (.tensor x5) (.num 3) (.num 1) = .ok v
      ∧ v.shape = [3, 3] ∧ v.elem [1, 2] = 3
      ∧ ∀ i < 3, ∀ j < 3, v.elem [i, j] = ((i + j : ℕ) : ℚ) := by
  have heq : view_as_windows (.tensor x5) (.num 3) (.num 1)
      = view_as_windows (.tensor x5) (.tup ([3].map Int.ofNat))
          (.tup ([1].map Int.ofNat)) := rfl
  have hthm := fun (i j : ℕ) (hi : i < 3) (hj : j < 3) =>
    view_as_windows_elem x5 [3] [1] [i] [j] (by decide) (by decide)
      (by norm_num [List.forall₂_cons, x5]) (by decide)
      (by norm_num [List.forall₂_cons, x5]; exact hi)
      (by norm_num [List.forall₂_cons]; exact hj)
  obtain ⟨v, hv, hs, he⟩ := hthm 1 2 (by norm_num) (by norm_num)
  refine ⟨v, heq.trans hv, by simpa [x5] using hs, ?_, ?_⟩
  · rw [List.cons_append, List.nil_append] at he
    rw [he]
    norm_num [Tensor.elem, encode, x5]
  · intro i hi j hj
    obtain ⟨v2, hv2, _, he2⟩ := hthm i j hi hj
    have hvv : v2 = v := by
      rw [hv] at hv2
      exact (Except.ok.inj hv2).symm
    rw [hvv, List.cons_append, List.nil_append] at he2
    rw [he2]
    norm_num [Tensor.elem, encode, x5]

/-! ### Validation behaviour of view_as_windows -/

theorem tooLarge_exists_iff (as : List ℕ) (ws : List ℤ) :
    (List.zipWith (fun (a : ℕ) (w : ℤ) => (a : ℤ) - w) as ws).any
        (fun z => decide (z < 0)) = true
      ↔ ∃ q ∈ as.zip ws, (q.1 : ℤ) < q.2 := by
  induction as generalizing ws with
  | nil => simp
  | cons a as ih =>
    cases ws with
    | nil => simp
    | cons x xs =>
      simp only [List.zipWith_cons_cons, List.any_cons, List.zip_cons_cons,
        Bool.or_eq_true, decide_eq_true_eq, ih, sub_neg, List.mem_cons]
      constructor
      · rintro (h | ⟨q, hq, hlt⟩)
        · exact ⟨(a, x), Or.inl rfl, h⟩
        · exact ⟨q, Or.inr hq, hlt⟩
      · rintro ⟨q, hq | hq, hlt⟩
        · subst hq; exact Or.inl hlt
        · exact Or.inr ⟨q, hq, hlt⟩

theorem small_exists_iff (l : List ℤ) :
    (l.any fun z => decide (z - 1 < 0)) = true ↔ ∃ z ∈ l, z < 1 := by
  simp [List.any_eq_true, sub_neg]

theorem step_exists_iff (l : List ℤ) :
    (l.any fun z => decide (z < 1)) = true ↔ ∃ z ∈ l, z < 1 := by
  simp [List.any_eq_true]

/-- Requirement on the `step` argument that the validation block of
`view_as_windows` actually enforces: a scalar step must be at least 1
(hw4.py lines 26-28), a tuple step is only checked for its length
(hw4.py lines 30-31). -/
def stepOk (s : Arg) (n : ℕ) : Prop :=
  match s with
  | .num z => 1 ≤ z
  | .tup l => l.length = n

/-- C2 (amended): full characterization of the validation behaviour of
`view_as_windows`, in the order the checks run.  A non-tensor input raises
`TypeError`; a `window_shape` of the wrong length raises `ValueError`
(`windowIncompat`); a scalar step below 1 raises `ValueError` (`stepLt1`);
a tuple step of the wrong length raises `ValueError` (`stepIncompat`); an
oversized window extent raises `ValueError` (`windowTooLarge`); a window
extent below 1 raises `ValueError` (`windowTooSmall`).  A tuple step with a
component below 1 is NOT caught by the validation block: it passes all of
the above and only raises a `ValueError` at the slice construction, after
the window-extent checks (`sliceStep`).  When no condition is violated the
call succeeds. -/
theorem view_as_windows_validation (t : Tensor) (w s : Arg) :
    view_as_windows .nonTensor w s = .error .typeError
    ∧ ((resolveArg t.shape.length w).length ≠ t.shape.length →
        view_as_windows (.tensor t) w s = .error .windowIncompat)
    ∧ (∀ z, s = .num z → z < 1 →
        (resolveArg t.shape.length w).length = t.shape.length →
        view_as_windows (.tensor t) w s = .error .stepLt1)
    ∧ (∀ l, s = .tup l → l.length ≠ t.shape.length →
        (resolveArg t.shape.length w).length = t.shape.length →
        view_as_windows (.tensor t) w s = .error .stepIncompat)
    ∧ ((resolveArg t.shape.length w).length = t.shape.length →
        stepOk s t.shape.length →
        (∃ q ∈ t.shape.zip (resolveArg t.shape.length w), (q.1 : ℤ) < q.2) →
        view_as_windows (.tensor t) w s = .error .windowTooLarge)
    ∧ ((resolveArg t.shape.length w).length = t.shape.length →
        stepOk s t.shape.length →
        (∀ q ∈ t.shape.zip (resolveArg t.shape.length w), (q.2 : ℤ) ≤ q.1) →
        (∃ z ∈ resolveArg t.shape.length w, z < 1) →
        view_as_windows (.tensor t) w s = .error .windowTooSmall)
    ∧ ((resolveArg t.shape.length w).length = t.shape.length →
        stepOk s t.shape.length →
        (∀ q ∈ t.shape.zip (resolveArg t.shape.length w), (q.2 : ℤ) ≤ q.1) →
        (∀ z ∈ resolveArg t.shape.length w, 1 ≤ z) →
        (∃ z ∈ resolveArg t.shape.length s, z < 1) →
        view_as_windows (.tensor t) w s = .error .sliceStep)
    ∧ ((resolveArg t.shape.length w).length = t.shape.length →
        stepOk s t.shape.length →
        (∀ q ∈ t.shape.zip (resolveArg t.shape.length w), (q.2 : ℤ) ≤ q.1) →
        (∀ z ∈ resolveArg t.shape.length w, 1 ≤ z) →
        (∀ z ∈ resolveArg t.shape.length s, 1 ≤ z) →
        ∃ v, view_as_windows (.tensor t) w s = .ok v) := by
  have hbigNeg : (∀ q ∈ t.shape.zip (resolveArg t.shape.length w),
      (q.2 : ℤ) ≤ q.1) →
      ¬((List.zipWith (fun (a : ℕ) (z : ℤ) => (a : ℤ) - z) t.shape
        (resolveArg t.shape.length w)).any (fun z => decide (z < 0)) = true) := by
    intro hnbig
    rw [tooLarge_exists_iff]
    rintro ⟨q, hq, hlt⟩
    exact absurd hlt (not_lt.mpr (hnbig q hq))
  have hsmallNeg : (∀ z ∈ resolveArg t.shape.length w, 1 ≤ z) →
      ¬(((resolveArg t.shape.length w).any fun z => decide (z - 1 < 0)) = true) := by
    intro hws1
    rw [small_exists_iff]
    rintro ⟨z, hz, hlt⟩
    exact absurd hlt (not_lt.mpr (hws1 z hz))
  refine ⟨rfl, ?_, ?_, ?_, ?_, ?_, ?_, ?_⟩
  · intro hne
    simp only [view_as_windows]
    rw [if_pos hne]
  · intro z hs hz hwl
    subst hs
    simp only [view_as_windows]
    rw [if_neg (fun h => h hwl), if_pos hz]
  · intro l hs hne hwl
    subst hs
    simp only [view_as_windows]
    rw [if_neg (fun h => h hwl), if_pos hne]
  · intro hwl hso hbig
    have hbig2 := (tooLarge_exists_iff t.shape (resolveArg t.shape.length w)).mpr hbig
    cases s with
    | num z =>
      simp only [stepOk] at hso
      simp only [view_as_windows]
      rw [if_neg (fun h => h hwl), if_neg (by omega), if_neg (by simp),
        if_pos hbig2]
    | tup l =>
      simp only [stepOk] at hso
      simp only [view_as_windows]
      rw [if_neg (fun h => h hwl), if_neg (fun h => h hso), if_pos hbig2]
  · intro hwl hso hnbig hsmall
    have hsm2 := (small_exists_iff (resolveArg t.shape.length w)).mpr hsmall
    cases s with
    | num z =>
      simp only [stepOk] at hso
      simp only [view_as_windows]
      rw [if_neg (fun h => h hwl), if_neg (by omega), if_neg (by simp),
        if_neg (hbigNeg hnbig), if_pos hsm2]
    | tup l =>
      simp only [stepOk] at hso
      simp only [view_as_windows]
      rw [if_neg (fun h => h hwl), if_neg (fun h => h hso),
        if_neg (hbigNeg hnbig), if_pos hsm2]
  · intro hwl hso hnbig hws1 hst
    cases s with
    | num z =>
      simp only [stepOk] at hso
      simp only [resolveArg] at hst
      obtain ⟨z2, hz2, hlt⟩ := hst
      have hz2e := List.eq_of_mem_replicate hz2
      subst hz2e
      exact absurd hlt (not_lt.mpr hso)
    | tup l =>
      simp only [stepOk] at hso
      simp only [resolveArg] at hst
      have hst2 := (step_exists_iff l).mpr hst
      simp only [view_as_windows]
      rw [if_neg (fun h => h hwl), if_neg (fun h => h hso),
        if_neg (hbigNeg hnbig), if_neg (hsmallNeg hws1), if_pos hst2]
  · intro hwl hso hnbig hws1 hst1
    cases s with
    | num z =>
      simp only [stepOk] at hso
      simp only [resolveArg] at hst1
      have hstNeg : ¬(((List.replicate t.shape.length z).any
          fun z2 => decide (z2 < 1)) = true) := by
        rw [step_exists_iff]
        rintro ⟨z2, hz2, hlt⟩
        have hz2e := List.eq_of_mem_replicate hz2
        subst hz2e
        exact absurd hlt (not_lt.mpr hso)
      simp only [view_as_windows]
      rw [if_neg (fun h => h hwl), if_neg (by omega), if_neg (by simp),
        if_neg (hbigNeg hnbig), if_neg (hsmallNeg hws1), if_neg hstNeg]
      exact ⟨_, rfl⟩
    | tup l =>
      simp only [stepOk] at hso
      simp only [resolveArg] at hst1
      have hstNeg : ¬((l.any fun z2 => decide (z2 < 1)) = true) := by
        rw [step_exists_iff]
        rintro ⟨z2, hz2, hlt⟩
        exact absurd hlt (not_lt.mpr (hst1 z2 hz2))
      simp only [view_as_windows]
      rw [if_neg (fun h => h hwl), if_neg (fun h => h hso),
        if_neg (hbigNeg hnbig), if_neg (hsmallNeg hws1), if_neg hstNeg]
      exact ⟨_, rfl⟩

/-- Counterexample to C2 as stated: on the rank-1 tensor `[0,1,2,3,4]` with
`window_shape = 1` and the tuple step `(0,)`, the step component is below 1
yet the validation block does not raise its documented step `ValueError`
(`stepLt1`, message "step must be >= 1"); the error actually raised is the
later slicing `ValueError`, after the window-extent checks. -/
theorem view_as_windows_tuple_step_cex :
    view_as_windows (.tensor x5) (.num 1) (.tup [0]) ≠ .error .stepLt1
    ∧ view_as_windows (.tensor x5) (.num 1) (.tup [0]) = .error .sliceStep := by
  have h : view_as_windows (.tensor x5) (.num 1) (.tup [0])
      = .error .sliceStep := rfl
  exact ⟨by rw [h]; simp, h⟩

/-- Witness for the amended C2: the slice-step clause fires on a concrete
tuple step containing 0, and a non-tensor input yields the `TypeError`. -/
theorem view_as_windows_validation_witness :
    view_as_windows (.tensor x5) (.num 1) (.tup [0]) = .error .sliceStep
    ∧ view_as_windows .nonTensor (.num 1) (.num 1) = .error .typeError := by
  refine ⟨?_, (view_as_windows_validation x5 (.num 1) (.num 1)).1⟩
  exact (view_as_windows_validation x5 (.num 1) (.tup [0])).2.2.2.2.2.2.1
    (by decide) (by simp [stepOk, x5]) (by decide) (by decide)
    ⟨0, by decide, by decide⟩

/-! ### Squeeze, reshape, permute, matrix multiply, broadcast add -/

/-- Simultaneous removal of entry `d` from a shape list and a stride list
when the shape entry at `d` is 1 (the effect of `torch.squeeze(t, d)` on a
strided view); any other dimension is left unchanged. -/
def squeezeSS : List ℕ → List ℕ → ℕ → List ℕ × List ℕ
  | s, t, 0 =>
    match s, t with
    | 1 :: s2, _ :: t2 => (s2, t2)
    | s, t => (s, t)
  | d :: s2, st :: t2, k + 1 =>
    (d :: (squeezeSS s2 t2 k).1, st :: (squeezeSS s2 t2 k).2)
  | s, t, _ + 1 => (s, t)

/-- Embedding of `torch.squeeze(v, d)` on a strided view (hw4.py lines 99
and 140). -/
def StridedView.squeeze (v : StridedView) (d : ℕ) : StridedView :=
  ⟨(squeezeSS v.shape v.stride d).1, (squeezeSS v.shape v.stride d).2, v.flat⟩

theorem squeezeSS_prod (k : ℕ) (s t : List ℕ) :
    (squeezeSS s t k).1.prod = s.prod := by
  induction k generalizing s t with
  | zero =>
    rcases s with _ | ⟨d, s2⟩
    · rfl
    rcases d with _ | ⟨_ | d⟩ <;> rcases t with _ | ⟨st, t2⟩ <;>
      simp [squeezeSS]
  | succ k ih =>
    rcases s with _ | ⟨d, s2⟩
    · rfl
    rcases t with _ | ⟨st, t2⟩
    · rfl
    simp [squeezeSS, ih]

theorem squeezeSS_dot (k : ℕ) (s t : List ℕ) (n : ℕ) :
    dot (decode (squeezeSS s t k).1 n) (squeezeSS s t k).2
      = dot (decode s n) t := by
  induction k generalizing s t with
  | zero =>
    rcases s with _ | ⟨d, s2⟩
    · rfl
    rcases d with _ | ⟨_ | d⟩ <;> rcases t with _ | ⟨st, t2⟩ <;>
      simp [squeezeSS, decode, dot, Nat.mod_one]
  | succ k ih =>
    rcases s with _ | ⟨d, s2⟩
    · rfl
    rcases t with _ | ⟨st, t2⟩
    · rfl
    simp only [squeezeSS, decode, dot, squeezeSS_prod, ih]

/-- Squeezing does not change the logical row-major enumeration of a view. -/
theorem elemAt_squeeze (v : StridedView) (d n : ℕ) :
    elemAt (v.squeeze d) n = elemAt v n :=
  congrArg v.flat (squeezeSS_dot d v.shape v.stride n)

/-- Embedding of `torch.reshape` (and of `.view`) applied to a strided view:
the result is a contiguous tensor whose row-major enumeration equals the
logical row-major enumeration of the view (hw4.py lines 101, 102, 104,
108). -/
def reshapeT (v : StridedView) (s : List ℕ) : Tensor :=
  ⟨s, fun n => elemAt v n⟩

/-- Embedding of `torch.permute`: dimension `k` of the result is dimension
`p k` of the input; shape and stride are reindexed, data is shared
(hw4.py lines 102, 109; `.t()` at line 106 is the permutation (1 0)). -/
def permuteV (v : StridedView) (p : List ℕ) : StridedView :=
  ⟨p.map (fun k => v.shape.getD k 0), p.map (fun k => v.stride.getD k 0), v.flat⟩

/-- Embedding of `torch.mm(A, B)` for a (m, k) by (k, p) product: entry
(i, j) of the row-major (m, p) result is the dot product of row i of `A`
with column j of `B` (hw4.py line 106). -/
def mmT (A B : StridedView) : Tensor :=
  ⟨[A.shape.getD 0 0, B.shape.getD 1 0],
   fun n => ∑ s ∈ Finset.range (A.shape.getD 1 0),
     A.elem [n / B.shape.getD 1 0, s] * B.elem [s, n % B.shape.getD 1 0]⟩

/-- Broadcast addition `out + b` of hw4.py line 111: `out` has shape
(batch, out_ch, out_h, out_w), `b` has shape (1, out_ch, 1, 1), and the
bias channel at position 1 of the multi-index is added elementwise. -/
def addBcastBias (t : Tensor) (b : Tensor) : Tensor :=
  ⟨t.shape, fun n => t.flat n + b.elem [0, (decode t.shape n).getD 1 0, 0, 0]⟩

theorem elemAt_asView (t : Tensor) (n : ℕ) :
    elemAt (asView t) n = t.flat (n % t.shape.prod) := by
  simp [elemAt, asView, StridedView.elem, dot_cstrides, encode_decode]

theorem mul_add_lt {a A b B : ℕ} (ha : a < A) (hb : b < B) :
    a * B + b < A * B :=
  calc a * B + b < a * B + B := by omega
    _ = (a + 1) * B := by ring
    _ ≤ A * B := Nat.mul_le_mul_right _ (by omega)

theorem sum_range_mul {M : Type} [AddCommMonoid M] (f : ℕ → M) (m n : ℕ) :
    ∑ s ∈ Finset.range (m * n), f s
      = ∑ i ∈ Finset.range m, ∑ j ∈ Finset.range n, f (i * n + j) := by
  induction m with
  | zero => simp
  | succ m ih =>
    have hmn : (m + 1) * n = m * n + n := by ring
    rw [hmn, Finset.sum_range_add, ih, Finset.sum_range_succ]

/-! ### The convolutional layer -/

/-- Embedding of `nn_convolutional_layer.forward(x)` (hw4.py lines 91-113),
line by line: the shapes are read off `x` and `W` (lines 92-96); the rolling
window view with window `(1, 1, f_height, f_width)` and default step 1 is
taken (line 98); two `squeeze(2)` calls (line 99); reshape to
(batch, in_ch, out_h*out_w, f_h*f_w) (line 101); permute (0,2,1,3) followed
by reshape to (batch*out_h*out_w, in_ch*f_h*f_w) (line 102); the weight is
reshaped to (out_ch, in_ch*f_h*f_w) (line 104); `torch.mm` with the
transposed weight matrix (line 106); reshape to (batch, out_h, out_w,
out_ch) (line 108); permute (0,3,1,2) (line 109); finally the broadcast
bias is added (line 111). -/
def conv_forward (W b x : Tensor) : Except PyErr Tensor :=
  let batch_size := x.shape.getD 0 0
  let in_ch_size := x.shape.getD 1 0
  let height := x.shape.getD 2 0
  let width := x.shape.getD 3 0
  let out_ch_size := W.shape.getD 0 0
  let f_height := W.shape.getD 2 0
  let f_width := W.shape.getD 3 0
  let out_height := height - f_height + 1
  let out_width := width - f_width + 1
  match view_as_windows (.tensor x)
      (.tup [1, 1, (f_height : ℤ), (f_width : ℤ)]) (.num 1) with
  | .error e => .error e
  | .ok xw =>
    let xw2 := (xw.squeeze 2).squeeze 2
    let x_col0 := reshapeT xw2
      [batch_size, in_ch_size, out_height * out_width, f_height * f_width]
    let x_col := reshapeT (permuteV (asView x_col0) [0, 2, 1, 3])
      [batch_size * out_height * out_width, in_ch_size * f_height * f_width]
    let W_col := reshapeT (asView W)
      [out_ch_size, in_ch_size * f_height * f_width]
    let out0 := mmT (asView x_col) (permuteV (asView W_col) [1, 0])
    let out1 := reshapeT (asView out0)
      [batch_size, out_height, out_width, out_ch_size]
    let out2 := permuteV (asView out1) [0, 3, 1, 2]
    .ok (addBcastBias
      (reshapeT out2 [batch_size, out_ch_size, out_height, out_width]) b)

/-! ### Unfolding equations for the tensor operations -/

theorem elemAt_eq (v : StridedView) (n : ℕ) :
    elemAt v n = v.elem (decode v.shape n) := rfl

theorem reshapeT_flat (v : StridedView) (s : List ℕ) (n : ℕ) :
    (reshapeT v s).flat n = elemAt v n := rfl

theorem reshapeT_elem (v : StridedView) (s ix : List ℕ) :
    (reshapeT v s).elem ix = elemAt v (encode s ix) := rfl

theorem reshapeT_shape (v : StridedView) (s : List ℕ) :
    (reshapeT v s).shape = s := rfl

theorem asView_elem (t : Tensor) (ix : List ℕ) :
    (asView t).elem ix = t.flat (dot ix (cstrides t.shape)) := rfl

theorem asView_shape (t : Tensor) : (asView t).shape = t.shape := rfl

theorem asView_stride (t : Tensor) : (asView t).stride = cstrides t.shape := rfl

theorem asView_flat (t : Tensor) : (asView t).flat = t.flat := rfl

theorem permuteV_elem (v : StridedView) (p ix : List ℕ) :
    (permuteV v p).elem ix
      = v.flat (dot ix (p.map fun k => v.stride.getD k 0)) := rfl

theorem permuteV_shape (v : StridedView) (p : List ℕ) :
    (permuteV v p).shape = p.map (fun k => v.shape.getD k 0) := rfl

theorem elem_def (t : Tensor) (ix : List ℕ) :
    t.elem ix = t.flat (encode t.shape ix) := rfl

theorem mmT_flat (A B : StridedView) (n : ℕ) :
    (mmT A B).flat n = ∑ s ∈ Finset.range (A.shape.getD 1 0),
      A.elem [n / B.shape.getD 1 0, s] * B.elem [s, n % B.shape.getD 1 0] := rfl

theorem mmT_shape (A B : StridedView) :
    (mmT A B).shape = [A.shape.getD 0 0, B.shape.getD 1 0] := rfl

theorem add_mul_div_right_of_lt {o O : ℕ} (r : ℕ) (ho : o < O) :
    (o + r * O) / O = r := by
  rw [Nat.add_mul_div_right _ _ (by omega : 0 < O), Nat.div_eq_of_lt ho]
  omega

theorem add_mul_mod_right_of_lt {o O : ℕ} (r : ℕ) (ho : o < O) :
    (o + r * O) % O = o := by
  rw [Nat.add_mul_mod_self_right, Nat.mod_eq_of_lt ho]

/-- C5: the convolution forward pass, implemented by unfolding window
patches and a single matrix multiply, succeeds on an input of shape
(batch, in_ch, H, W) with weights of shape (out_ch, in_ch, f_h, f_w) and
bias of shape (1, out_ch, 1, 1); its output has shape
(batch, out_ch, H - f_h + 1, W - f_w + 1) and each element equals the
reference valid, unpadded, stride-1 cross-correlation (no kernel flip)
plus the broadcast bias, exactly, over exact rational arithmetic. -/
theorem conv_forward_correct (B C H Wd O fh fw : ℕ) (xf Wf : ℕ → ℚ) (b : Tensor)
    (hb : b.shape = [1, O, 1, 1])
    (hB : 1 ≤ B) (hC : 1 ≤ C)
    (hfh : 1 ≤ fh) (hfw : 1 ≤ fw) (hfhH : fh ≤ H) (hfwW : fw ≤ Wd)
    (bi o y z : ℕ)
    (hbi : bi < B) (ho : o < O) (hy : y < H - fh + 1) (hz : z < Wd - fw + 1) :
    ∃ outT, conv_forward ⟨[O, C, fh, fw], Wf⟩ b ⟨[B, C, H, Wd], xf⟩ = .ok outT
      ∧ outT.shape = [B, O, H - fh + 1, Wd - fw + 1]
      ∧ outT.elem [bi, o, y, z]
          = (∑ c ∈ Finset.range C, ∑ u ∈ Finset.range fh, ∑ v ∈ Finset.range fw,
              Tensor.elem ⟨[B, C, H, Wd], xf⟩ [bi, c, y + u, z + v]
                * Tensor.elem ⟨[O, C, fh, fw], Wf⟩ [o, c, u, v])
            + b.elem [0, o, 0, 0] := by
  have hnum : view_as_windows (.tensor (⟨[B, C, H, Wd], xf⟩ : Tensor))
      (.tup [1, 1, (fh : ℤ), (fw : ℤ)]) (.num 1)
    = view_as_windows (.tensor ⟨[B, C, H, Wd], xf⟩)
        (.tup ([1, 1, fh, fw].map Int.ofNat)) (.tup ([1, 1, 1, 1].map Int.ofNat)) := rfl
  have hvawok := view_as_windows_ok ⟨[B, C, H, Wd], xf⟩ [1, 1, fh, fw] [1, 1, 1, 1]
    (by simp) (by intro w hw; fin_cases hw <;> omega)
    (by simp [List.forall₂_cons]; omega)
    (by intro z2 hz2; fin_cases hz2 <;> omega)
  have hV : view_as_windows (.tensor (⟨[B, C, H, Wd], xf⟩ : Tensor))
      (.tup [1, 1, (fh : ℤ), (fw : ℤ)]) (.num 1)
      = .ok ⟨[B, C, H - fh + 1, Wd - fw + 1, 1, 1, fh, fw],
             [C * (H * Wd), H * Wd, Wd, 1, C * (H * Wd), H * Wd, Wd, 1], xf⟩ := by
    rw [hnum, hvawok]
    refine congrArg Except.ok ?_
    simp [cstrides]
    omega
  simp only [conv_forward, List.getD_cons_zero, List.getD_cons_succ, hV]
  refine ⟨_, rfl, rfl, ?_⟩
  set oh := H - fh + 1 with hoh
  set ow := Wd - fw + 1 with how
  have hbound4 : List.Forall₂ (· < ·) [bi, o, y, z] [B, O, oh, ow] :=
    .cons hbi (.cons ho (.cons hy (.cons hz .nil)))
  have hdec0 : decode [B, O, oh, ow] (encode [B, O, oh, ow] [bi, o, y, z])
      = [bi, o, y, z] := decode_encode hbound4
  -- name the pipeline stages
  generalize hSQ : ((⟨[B, C, oh, ow, 1, 1, fh, fw],
      [C * (H * Wd), H * Wd, Wd, 1, C * (H * Wd), H * Wd, Wd, 1],
      xf⟩ : StridedView).squeeze 2).squeeze 2 = SQ
  have hSQe : ∀ n, elemAt SQ n
      = elemAt (⟨[B, C, oh, ow, 1, 1, fh, fw],
          [C * (H * Wd), H * Wd, Wd, 1, C * (H * Wd), H * Wd, Wd, 1],
          xf⟩ : StridedView) n := by
    intro n
    rw [← hSQ, elemAt_squeeze, elemAt_squeeze]
  generalize hX0 : reshapeT SQ [B, C, oh * ow, fh * fw] = X0
  have hX0s : X0.shape = [B, C, oh * ow, fh * fw] := by rw [← hX0]; rfl
  generalize hPV : permuteV (asView X0) [0, 2, 1, 3] = PV
  have hPVs : PV.shape = [B, oh * ow, C, fh * fw] := by
    rw [← hPV, permuteV_shape, asView_shape, hX0s]
    rfl
  generalize hXC : reshapeT PV [B * oh * ow, C * fh * fw] = XC
  have hXCs : XC.shape = [B * oh * ow, C * fh * fw] := by rw [← hXC]; rfl
  generalize hWC : reshapeT (asView (⟨[O, C, fh, fw], Wf⟩ : Tensor))
      [O, C * fh * fw] = WC
  have hWCs : WC.shape = [O, C * fh * fw] := by rw [← hWC]; rfl
  generalize hT0 : mmT (asView XC) (permuteV (asView WC) [1, 0]) = T0
  have hT0s : T0.shape = [B * oh * ow, O] := by
    rw [← hT0, mmT_shape, asView_shape, hXCs, permuteV_shape, asView_shape, hWCs]
    rfl
  -- split off the bias
  show (reshapeT (permuteV (asView (reshapeT (asView T0) [B, oh, ow, O]))
        [0, 3, 1, 2]) [B, O, oh, ow]).flat (encode [B, O, oh, ow] [bi, o, y, z])
      + b.elem [0, (decode [B, O, oh, ow]
          (encode [B, O, oh, ow] [bi, o, y, z])).getD 1 0, 0, 0] = _
  rw [hdec0]
  show _ + b.elem [0, o, 0, 0] = _
  refine congrArg₂ (· + ·) ?_ rfl
  -- top of the pipeline down to the matrix product
  have htop : (reshapeT (permuteV (asView (reshapeT (asView T0) [B, oh, ow, O]))
        [0, 3, 1, 2]) [B, O, oh, ow]).flat (encode [B, O, oh, ow] [bi, o, y, z])
      = T0.flat (o + ((bi * oh + y) * ow + z) * O) := by
    rw [reshapeT_flat, elemAt_eq, permuteV_shape, asView_shape, reshapeT_shape]
    rw [show [0, 3, 1, 2].map (fun k => [B, oh, ow, O].getD k 0)
        = [B, O, oh, ow] from rfl]
    rw [hdec0, permuteV_elem, asView_stride, reshapeT_shape, asView_flat,
      reshapeT_flat, elemAt_asView]
    have harith : dot [bi, o, y, z] ([0, 3, 1, 2].map
          fun k => (cstrides [B, oh, ow, O]).getD k 0)
        = o + ((bi * oh + y) * ow + z) * O := by
      simp [dot, cstrides, List.prod_cons, List.prod_nil]
      ring
    have hr : (bi * oh + y) * ow + z < B * oh * ow :=
      mul_add_lt (mul_add_lt hbi hy) hz
    have hlt : o + ((bi * oh + y) * ow + z) * O < ([B * oh * ow, O] : List ℕ).prod := by
      calc o + ((bi * oh + y) * ow + z) * O
          = ((bi * oh + y) * ow + z) * O + o := by ring
        _ < (B * oh * ow) * O := mul_add_lt hr ho
        _ = ([B * oh * ow, O] : List ℕ).prod := by
            simp [List.prod_cons, List.prod_nil]
    rw [harith, hT0s, Nat.mod_eq_of_lt hlt]
  rw [htop]
  -- the matrix product as a sum
  have hmm2 : T0.flat (o + ((bi * oh + y) * ow + z) * O)
      = ∑ s ∈ Finset.range (C * fh * fw),
          (asView XC).elem [(bi * oh + y) * ow + z, s]
            * (permuteV (asView WC) [1, 0]).elem [s, o] := by
    rw [← hT0, mmT_flat, asView_shape, hXCs, permuteV_shape, asView_shape, hWCs]
    rw [show ([1, 0].map fun k => ([O, C * fh * fw] : List ℕ).getD k 0)
        = [C * fh * fw, O] from rfl]
    simp only [List.getD_cons_zero, List.getD_cons_succ]
    rw [add_mul_div_right_of_lt _ ho, add_mul_mod_right_of_lt _ ho]
  rw [hmm2]
  rw [sum_range_mul _ (C * fh) fw, sum_range_mul _ C fh]
  refine Finset.sum_congr rfl fun c hc => ?_
  refine Finset.sum_congr rfl fun u hu => ?_
  refine Finset.sum_congr rfl fun v hv => ?_
  rw [Finset.mem_range] at hc hu hv
  -- the weight factor
  have hW2 : (permuteV (asView WC) [1, 0]).elem [(c * fh + u) * fw + v, o]
      = Wf (encode [O, C, fh, fw] [o, c, u, v]) := by
    rw [permuteV_elem, asView_flat, asView_stride, hWCs]
    rw [← hWC, reshapeT_flat, elemAt_asView]
    show Wf ((dot [(c * fh + u) * fw + v, o]
        ([1, 0].map fun k => (cstrides [O, C * fh * fw]).getD k 0))
        % ([O, C, fh, fw] : List ℕ).prod) = _
    have he : dot [(c * fh + u) * fw + v, o]
          ([1, 0].map fun k => (cstrides [O, C * fh * fw]).getD k 0)
        = encode [O, C, fh, fw] [o, c, u, v] := by
      simp [dot, cstrides, encode, List.prod_cons, List.prod_nil]
      ring
    have hlt2 : encode [O, C, fh, fw] [o, c, u, v]
        < ([O, C, fh, fw] : List ℕ).prod :=
      encode_lt (.cons ho (.cons hc (.cons hu (.cons hv .nil))))
    rw [he, Nat.mod_eq_of_lt hlt2]
  -- the input factor
  have hA : (asView XC).elem [(bi * oh + y) * ow + z, (c * fh + u) * fw + v]
      = PV.elem [bi, y * ow + z, c, u * fw + v] := by
    rw [asView_elem, hXCs]
    have hm : dot [(bi * oh + y) * ow + z, (c * fh + u) * fw + v]
          (cstrides [B * oh * ow, C * fh * fw])
        = encode [B, oh * ow, C, fh * fw] [bi, y * ow + z, c, u * fw + v] := by
      simp [dot, cstrides, encode, List.prod_cons, List.prod_nil]
      ring
    rw [hm, ← hXC, reshapeT_flat, elemAt_eq, hPVs,
      decode_encode (.cons hbi (.cons (mul_add_lt hy hz)
        (.cons hc (.cons (mul_add_lt hu hv) .nil))))]
  have hB2 : PV.elem [bi, y * ow + z, c, u * fw + v]
      = X0.flat (encode [B, C, oh * ow, fh * fw] [bi, c, y * ow + z, u * fw + v]) := by
    rw [← hPV, permuteV_elem, asView_flat, asView_stride, hX0s]
    refine congrArg X0.flat ?_
    simp [dot, cstrides, encode, List.prod_cons, List.prod_nil]
    ring
  have hC2 : X0.flat (encode [B, C, oh * ow, fh * fw] [bi, c, y * ow + z, u * fw + v])
      = xf (encode [B, C, H, Wd] [bi, c, y + u, z + v]) := by
    rw [← hX0, reshapeT_flat, hSQe, elemAt_eq]
    rw [show (⟨[B, C, oh, ow, 1, 1, fh, fw],
        [C * (H * Wd), H * Wd, Wd, 1, C * (H * Wd), H * Wd, Wd, 1],
        xf⟩ : StridedView).shape = [B, C, oh, ow, 1, 1, fh, fw] from rfl]
    have henc : encode [B, C, oh * ow, fh * fw] [bi, c, y * ow + z, u * fw + v]
        = encode [B, C, oh, ow, 1, 1, fh, fw] [bi, c, y, z, 0, 0, u, v] := by
      simp [encode, List.prod_cons, List.prod_nil]
      ring
    rw [henc, decode_encode (.cons hbi (.cons hc (.cons hy (.cons hz
      (.cons (by omega) (.cons (by omega) (.cons hu (.cons hv .nil))))))))]
    show xf (dot [bi, c, y, z, 0, 0, u, v]
        [C * (H * Wd), H * Wd, Wd, 1, C * (H * Wd), H * Wd, Wd, 1]) = _
    refine congrArg xf ?_
    simp [dot, encode, List.prod_cons, List.prod_nil]
    ring
  rw [hA, hW2, hB2, hC2]
  rfl

/-- Witness for C5 at a concrete instance: a 2x2 single-channel input with a
2x2 filter of ones and bias 2. -/
theorem conv_forward_correct_witness :
    ∃ outT, conv_forward ⟨[1, 1, 2, 2], fun _ => 1⟩ ⟨[1, 1, 1, 1], fun _ => 2⟩
        ⟨[1, 1, 2, 2], fun n => (n : ℚ)⟩ = .ok outT
      ∧ outT.shape = [1, 1, 2 - 2 + 1, 2 - 2 + 1]
      ∧ outT.elem [0, 0, 0, 0]
          = (∑ c ∈ Finset.range 1, ∑ u ∈ Finset.range 2, ∑ v ∈ Finset.range 2,
              Tensor.elem ⟨[1, 1, 2, 2], fun n => (n : ℚ)⟩ [0, c, 0 + u, 0 + v]
                * Tensor.elem ⟨[1, 1, 2, 2], fun _ => 1⟩ [0, c, u, v])
            + Tensor.elem ⟨[1, 1, 1, 1], fun _ => 2⟩ [0, 0, 0, 0] :=
  conv_forward_correct 1 1 2 2 1 2 2 (fun n => (n : ℚ)) (fun _ => 1)
    ⟨[1, 1, 1, 1], fun _ => 2⟩ rfl (by decide) (by decide) (by decide)
    (by decide) (by decide) (by decide) 0 0 0 0 (by decide) (by decide)
    (by decide) (by decide)

/-! ### The max pooling layer -/

/-- Embedding of `torch.max(w, dim=-1)[0]` (hw4.py line 144): the last
dimension is reduced by maximum, the result keeping the remaining
dimensions.  Defined for a nonempty last dimension; torch raises on an
empty reduction axis. -/
def maxLast (t : Tensor) : Tensor :=
  ⟨t.shape.dropLast,
   fun n => (List.range (t.shape.getLastD 0)).foldl
     (fun a k => max a (t.flat (n * t.shape.getLastD 0 + k)))
     (t.flat (n * t.shape.getLastD 0))⟩

/-- Embedding of `nn_max_pooling_layer.forward(x)` (hw4.py lines 133-146):
output spatial sizes `(height - pool_size) / stride + 1` and
`(width - pool_size) / stride + 1` (lines 136-137); window view with window
`(1, 1, pool_size, pool_size)` and step `(1, 1, stride, stride)`
(line 139); two `squeeze(2)` calls (line 140); reshape to
(batch, channels, out_h, out_w, pool_size * pool_size) (line 142); maximum
over the flattened window axis (line 144). -/
def max_pool_forward (pool_size stride : ℕ) (x : Tensor) :
    Except PyErr Tensor :=
  let batch_size := x.shape.getD 0 0
  let channels := x.shape.getD 1 0
  let height := x.shape.getD 2 0
  let width := x.shape.getD 3 0
  let out_height := (height - pool_size) / stride + 1
  let out_width := (width - pool_size) / stride + 1
  match view_as_windows (.tensor x)
      (.tup [1, 1, (pool_size : ℤ), (pool_size : ℤ)])
      (.tup [1, 1, (stride : ℤ), (stride : ℤ)]) with
  | .error e => .error e
  | .ok w =>
    let w2 := (w.squeeze 2).squeeze 2
    .ok (maxLast (reshapeT w2
      [batch_size, channels, out_height, out_width, pool_size * pool_size]))

theorem foldl_max_isGreatest (f : ℕ → ℚ) (L : ℕ) (hL : 1 ≤ L) :
    IsGreatest {q | ∃ k < L, q = f k}
      ((List.range L).foldl (fun a k => max a (f k)) (f 0)) := by
  induction L with
  | zero => omega
  | succ L ih =>
    rcases Nat.eq_zero_or_pos L with h0 | hLpos
    · subst h0
      constructor
      · exact ⟨0, by omega, by simp [List.range_succ]⟩
      · rintro q ⟨k, hk, rfl⟩
        have hk0 : k = 0 := by omega
        subst hk0
        simp [List.range_succ]
    · have ih2 := ih hLpos
      rw [List.range_succ, List.foldl_append]
      simp only [List.foldl_cons, List.foldl_nil]
      constructor
      · rcases max_choice ((List.range L).foldl (fun a k => max a (f k)) (f 0))
            (f L) with h | h <;> rw [h]
        · obtain ⟨k, hk, hkeq⟩ := ih2.1
          exact ⟨k, by omega, hkeq⟩
        · exact ⟨L, by omega, rfl⟩
      · rintro q ⟨k, hk, rfl⟩
        rcases Nat.lt_succ_iff_lt_or_eq.mp hk with h | h
        · exact le_trans (ih2.2 ⟨k, h, rfl⟩) (le_max_left _ _)
        · subst h
          exact le_max_right _ _

/-- C6: the max pooling forward pass on an input of shape (B, C, H, W)
succeeds, produces output of spatial size `(H - pool_size) / stride + 1` by
`(W - pool_size) / stride + 1` (integer division, so evenly- and
unevenly-divisible sizes are both covered), and each output element is the
maximum of the pool_size-by-pool_size window of the input it covers. -/
theorem max_pool_correct (B C H Wd ps st : ℕ) (xf : ℕ → ℚ)
    (hB : 1 ≤ B) (hC : 1 ≤ C) (hps : 1 ≤ ps) (hst : 1 ≤ st)
    (hpsH : ps ≤ H) (hpsW : ps ≤ Wd)
    (b c y z : ℕ) (hb : b < B) (hc : c < C)
    (hy : y < (H - ps) / st + 1) (hz : z < (Wd - ps) / st + 1) :
    ∃ t, max_pool_forward ps st ⟨[B, C, H, Wd], xf⟩ = .ok t
      ∧ t.shape = [B, C, (H - ps) / st + 1, (Wd - ps) / st + 1]
      ∧ IsGreatest {q : ℚ | ∃ u < ps, ∃ v < ps,
            q = Tensor.elem ⟨[B, C, H, Wd], xf⟩ [b, c, y * st + u, z * st + v]}
          (t.elem [b, c, y, z]) := by
  have hnum : view_as_windows (.tensor (⟨[B, C, H, Wd], xf⟩ : Tensor))
      (.tup [1, 1, (ps : ℤ), (ps : ℤ)]) (.tup [1, 1, (st : ℤ), (st : ℤ)])
    = view_as_windows (.tensor ⟨[B, C, H, Wd], xf⟩)
        (.tup ([1, 1, ps, ps].map Int.ofNat))
        (.tup ([1, 1, st, st].map Int.ofNat)) := rfl
  have hvawok := view_as_windows_ok ⟨[B, C, H, Wd], xf⟩ [1, 1, ps, ps]
    [1, 1, st, st]
    (by simp) (by intro w hw; fin_cases hw <;> omega)
    (by simp [List.forall₂_cons]; omega)
    (by intro z2 hz2; fin_cases hz2 <;> omega)
  have hV : view_as_windows (.tensor (⟨[B, C, H, Wd], xf⟩ : Tensor))
      (.tup [1, 1, (ps : ℤ), (ps : ℤ)]) (.tup [1, 1, (st : ℤ), (st : ℤ)])
      = .ok ⟨[B, C, (H - ps) / st + 1, (Wd - ps) / st + 1, 1, 1, ps, ps],
             [C * (H * Wd), H * Wd, Wd * st, st, C * (H * Wd), H * Wd, Wd, 1],
             xf⟩ := by
    rw [hnum, hvawok]
    refine congrArg Except.ok ?_
    simp [cstrides]
    omega
  simp only [max_pool_forward, List.getD_cons_zero, List.getD_cons_succ, hV]
  refine ⟨_, rfl, rfl, ?_⟩
  set oh := (H - ps) / st + 1 with hoh
  set ow := (Wd - ps) / st + 1 with how
  generalize hSQ : ((⟨[B, C, oh, ow, 1, 1, ps, ps],
      [C * (H * Wd), H * Wd, Wd * st, st, C * (H * Wd), H * Wd, Wd, 1],
      xf⟩ : StridedView).squeeze 2).squeeze 2 = SQ
  have hSQe : ∀ n, elemAt SQ n
      = elemAt (⟨[B, C, oh, ow, 1, 1, ps, ps],
          [C * (H * Wd), H * Wd, Wd * st, st, C * (H * Wd), H * Wd, Wd, 1],
          xf⟩ : StridedView) n := by
    intro n
    rw [← hSQ, elemAt_squeeze, elemAt_squeeze]
  generalize hT5 : reshapeT SQ [B, C, oh, ow, ps * ps] = T5
  have hT5s : T5.shape = [B, C, oh, ow, ps * ps] := by rw [← hT5]; rfl
  have hml : (maxLast T5).elem [b, c, y, z]
      = (List.range (ps * ps)).foldl
          (fun a k => max a (T5.flat (encode [B, C, oh, ow] [b, c, y, z] * (ps * ps) + k)))
          (T5.flat (encode [B, C, oh, ow] [b, c, y, z] * (ps * ps))) := by
    show (maxLast T5).flat (encode (maxLast T5).shape [b, c, y, z]) = _
    rw [show (maxLast T5).shape = T5.shape.dropLast from rfl,
      show (maxLast T5).flat = fun n => (List.range (T5.shape.getLastD 0)).foldl
        (fun a k => max a (T5.flat (n * T5.shape.getLastD 0 + k)))
        (T5.flat (n * T5.shape.getLastD 0)) from rfl, hT5s]
    rfl
  have hterm : ∀ u < ps, ∀ v < ps,
      T5.flat (encode [B, C, oh, ow] [b, c, y, z] * (ps * ps) + (u * ps + v))
        = xf (encode [B, C, H, Wd] [b, c, y * st + u, z * st + v]) := by
    intro u hu v hv
    rw [← hT5, reshapeT_flat, hSQe, elemAt_eq]
    rw [show (⟨[B, C, oh, ow, 1, 1, ps, ps],
        [C * (H * Wd), H * Wd, Wd * st, st, C * (H * Wd), H * Wd, Wd, 1],
        xf⟩ : StridedView).shape = [B, C, oh, ow, 1, 1, ps, ps] from rfl]
    have henc : encode [B, C, oh, ow] [b, c, y, z] * (ps * ps) + (u * ps + v)
        = encode [B, C, oh, ow, 1, 1, ps, ps] [b, c, y, z, 0, 0, u, v] := by
      simp [encode, List.prod_cons, List.prod_nil]
      ring
    rw [henc, decode_encode (.cons hb (.cons hc (.cons hy (.cons hz
      (.cons (by omega) (.cons (by omega) (.cons hu (.cons hv .nil))))))))]
    show xf (dot [b, c, y, z, 0, 0, u, v]
        [C * (H * Wd), H * Wd, Wd * st, st, C * (H * Wd), H * Wd, Wd, 1]) = _
    refine congrArg xf ?_
    simp [dot, encode, List.prod_cons, List.prod_nil]
    ring
  have hL : 1 ≤ ps * ps := by
    calc 1 = 1 * 1 := by omega
      _ ≤ ps * ps := Nat.mul_le_mul hps hps
  have hIG := foldl_max_isGreatest
    (fun k => T5.flat (encode [B, C, oh, ow] [b, c, y, z] * (ps * ps) + k))
    (ps * ps) hL
  have hset : {q : ℚ | ∃ k < ps * ps,
        q = T5.flat (encode [B, C, oh, ow] [b, c, y, z] * (ps * ps) + k)}
      = {q : ℚ | ∃ u < ps, ∃ v < ps,
          q = Tensor.elem ⟨[B, C, H, Wd], xf⟩ [b, c, y * st + u, z * st + v]} := by
    ext q
    constructor
    · rintro ⟨k, hk, rfl⟩
      have hu : k / ps < ps := by
        rw [Nat.div_lt_iff_lt_mul (by omega : 0 < ps)]
        exact hk
      have hv : k % ps < ps := Nat.mod_lt _ (by omega)
      refine ⟨k / ps, hu, k % ps, hv, ?_⟩
      have hks : k = k / ps * ps + k % ps := (Nat.div_add_mod' k ps).symm
      conv_lhs => rw [hks]
      rw [hterm (k / ps) hu (k % ps) hv]
      rfl
    · rintro ⟨u, hu, v, hv, rfl⟩
      refine ⟨u * ps + v, mul_add_lt hu hv, ?_⟩
      rw [hterm u hu v hv]
      rfl
  rw [hml, ← hset]
  exact hIG

/-- The 2x2 tensor `[[1, 2], [3, 4]]` as a (1, 1, 2, 2) batch. -/
def x22mat : Tensor := ⟨[1, 1, 2, 2], fun n => (([1, 2, 3, 4] : List ℚ).getD n 0)⟩

/-- Witness for C6: max pooling `[[1,2],[3,4]]` with pool size 2 and stride 2
yields the single window maximum, and the computed value is `[[4]]`. -/
theorem max_pool_correct_witness :
    (∃ t, max_pool_forward 2 2 x22mat = .ok t
      ∧ t.shape = [1, 1, (2 - 2) / 2 + 1, (2 - 2) / 2 + 1]
      ∧ IsGreatest {q : ℚ | ∃ u < 2, ∃ v < 2,
          q = Tensor.elem x22mat [0, 0, 0 * 2 + u, 0 * 2 + v]}
        (t.elem [0, 0, 0, 0]))
    ∧ Except.map (fun t => (t.shape, t.elem [0, 0, 0, 0]))
        (max_pool_forward 2 2 x22mat) = .ok ([1, 1, 1, 1], 4) := by
  constructor
  · exact max_pool_correct 1 1 2 2 2 2 x22mat.flat (by decide) (by decide)
      (by decide) (by decide) (by decide) (by decide) 0 0 0 0 (by decide)
      (by decide) (by decide) (by decide)
  · rfl

/-! ### Parameter storage and aliasing for the convolutional layer -/

/-- A heap of tensor storages: `size` storages are allocated and `mem r` is
the flat data stored at reference `r`.  Python tensor variables are
references into such a heap; mutation through any alias of a reference
changes the storage seen by every alias. -/
structure Store where
  size : ℕ
  mem : ℕ → (ℕ → ℚ)

/-- Allocation of a fresh storage holding `v`. -/
def Store.alloc (s : Store) (v : ℕ → ℚ) : ℕ × Store :=
  (s.size, ⟨s.size + 1, fun r => if r = s.size then v else s.mem r⟩)

/-- In-place overwrite of the storage at `r` (the effect of mutating a
tensor through any alias of it, e.g. by `+=`). -/
def Store.write (s : Store) (r : ℕ) (v : ℕ → ℚ) : Store :=
  ⟨s.size, fun r2 => if r2 = r then v else s.mem r2⟩

/-- `t.clone().detach()`: a freshly allocated storage holding a copy of the
data at `r` (clone copies the storage; detach only severs autograd). -/
def cloneDetach (s : Store) (r : ℕ) : ℕ × Store := s.alloc (s.mem r)

/-- The parameter references held by an `nn_convolutional_layer`: `self.W`
and `self.b`. -/
structure ConvLayer where
  Wref : ℕ
  bref : ℕ

/-- A layer is valid in a store when its parameter references are allocated. -/
def ConvLayer.valid (l : ConvLayer) (s : Store) : Prop :=
  l.Wref < s.size ∧ l.bref < s.size

/-- `get_weights()` (hw4.py lines 81-82): returns
`self.W.clone().detach(), self.b.clone().detach()` - two freshly allocated
copies of the parameter storages; the store grows by two. -/
def get_weights (s : Store) (l : ConvLayer) : ℕ × ℕ × Store :=
  let rw := cloneDetach s l.Wref
  let rb := cloneDetach rw.2 l.bref
  (rw.1, rb.1, rb.2)

/-- `set_weights(W, b)` (hw4.py lines 84-86): stores detached clones of the
caller's tensors as the layer's new parameters. -/
def set_weights (s : Store) (l : ConvLayer) (Wr br : ℕ) :
    ConvLayer × Store :=
  let rw := cloneDetach s Wr
  let rb := cloneDetach rw.2 br
  (⟨rw.1, rb.1⟩, rb.2)

/-- `update_weights(dW, db)` (hw4.py lines 77-79): in-place `+=` on the
layer's parameter storages. -/
def update_weights (s : Store) (l : ConvLayer) (dW db : ℕ → ℚ) : Store :=
  let s1 := s.write l.Wref (fun n => s.mem l.Wref n + dW n)
  s1.write l.bref (fun n => s1.mem l.bref n + db n)

/-- C9: `get_weights` returns detached copies of `W` and `b`, and
`set_weights` stores detached copies of its arguments.  In order: the
returned storages hold copies of the parameter data; `get_weights` leaves
the layer parameters untouched; writing through either returned reference
leaves both layer parameters unchanged; mutating the layer parameters via
`update_weights` leaves both returned storages unchanged; `set_weights`
stores copies of the caller data; writing through the caller references
leaves the new parameters unchanged; and `update_weights` on the new layer
leaves the caller storages unchanged - no aliasing in either direction. -/
theorem conv_weights_no_alias (s : Store) (l : ConvLayer) (hv : l.valid s)
    (Wr br : ℕ) (hWr : Wr < s.size) (hbr : br < s.size) :
    ((get_weights s l).2.2.mem (get_weights s l).1 = s.mem l.Wref
      ∧ (get_weights s l).2.2.mem (get_weights s l).2.1 = s.mem l.bref)
    ∧ ((get_weights s l).2.2.mem l.Wref = s.mem l.Wref
      ∧ (get_weights s l).2.2.mem l.bref = s.mem l.bref)
    ∧ (∀ v, (((get_weights s l).2.2.write (get_weights s l).1 v).mem l.Wref
          = (get_weights s l).2.2.mem l.Wref
        ∧ ((get_weights s l).2.2.write (get_weights s l).1 v).mem l.bref
          = (get_weights s l).2.2.mem l.bref)
      ∧ (((get_weights s l).2.2.write (get_weights s l).2.1 v).mem l.Wref
          = (get_weights s l).2.2.mem l.Wref
        ∧ ((get_weights s l).2.2.write (get_weights s l).2.1 v).mem l.bref
          = (get_weights s l).2.2.mem l.bref))
    ∧ (∀ dW db,
        (update_weights (get_weights s l).2.2 l dW db).mem (get_weights s l).1
          = (get_weights s l).2.2.mem (get_weights s l).1
        ∧ (update_weights (get_weights s l).2.2 l dW db).mem (get_weights s l).2.1
          = (get_weights s l).2.2.mem (get_weights s l).2.1)
    ∧ ((set_weights s l Wr br).2.mem (set_weights s l Wr br).1.Wref = s.mem Wr
      ∧ (set_weights s l Wr br).2.mem (set_weights s l Wr br).1.bref = s.mem br)
    ∧ (∀ v, (((set_weights s l Wr br).2.write Wr v).mem (set_weights s l Wr br).1.Wref
          = (set_weights s l Wr br).2.mem (set_weights s l Wr br).1.Wref)
      ∧ (((set_weights s l Wr br).2.write br v).mem (set_weights s l Wr br).1.bref
          = (set_weights s l Wr br).2.mem (set_weights s l Wr br).1.bref))
    ∧ (∀ dW db,
        (update_weights (set_weights s l Wr br).2 (set_weights s l Wr br).1 dW db).mem Wr
          = (set_weights s l Wr br).2.mem Wr
        ∧ (update_weights (set_weights s l Wr br).2 (set_weights s l Wr br).1 dW db).mem br
          = (set_weights s l Wr br).2.mem br) := by
  obtain ⟨hvW, hvb⟩ := hv
  have h1 : l.Wref ≠ s.size := by omega
  have h2 : l.Wref ≠ s.size + 1 := by omega
  have h3 : l.bref ≠ s.size := by omega
  have h4 : l.bref ≠ s.size + 1 := by omega
  have h5 : s.size ≠ s.size + 1 := by omega
  have h6 : s.size + 1 ≠ s.size := by omega
  have h7 : Wr ≠ s.size := by omega
  have h8 : Wr ≠ s.size + 1 := by omega
  have h9 : br ≠ s.size := by omega
  have h10 : br ≠ s.size + 1 := by omega
  have h11 : s.size ≠ l.Wref := by omega
  have h12 : s.size ≠ l.bref := by omega
  have h13 : s.size + 1 ≠ l.Wref := by omega
  have h14 : s.size + 1 ≠ l.bref := by omega
  have h15 : s.size ≠ Wr := by omega
  have h16 : s.size ≠ br := by omega
  have h17 : s.size + 1 ≠ Wr := by omega
  have h18 : s.size + 1 ≠ br := by omega
  refine ⟨⟨?_, ?_⟩, ⟨?_, ?_⟩, fun v => ⟨⟨?_, ?_⟩, ⟨?_, ?_⟩⟩,
    fun dW db => ⟨?_, ?_⟩, ⟨?_, ?_⟩, fun v => ⟨?_, ?_⟩, fun dW db => ⟨?_, ?_⟩⟩ <;>
    simp [get_weights, set_weights, update_weights, cloneDetach, Store.alloc,
      Store.write, h1, h2, h3, h4, h5, h6, h7, h8, h9, h10, h11, h12, h13,
      h14, h15, h16, h17, h18]

/-- A concrete two-storage store and layer for the aliasing witness. -/
def store0 : Store := ⟨2, fun r n => ((r * 10 + n : ℕ) : ℚ)⟩

/-- The layer holding the first two storages of `store0`. -/
def layer0 : ConvLayer := ⟨0, 1⟩

/-- Witness for C9 on the concrete store: the returned copy holds the
parameter data, overwriting it leaves the layer parameter unchanged, and
updating the freshly set parameters leaves the caller storage unchanged. -/
theorem conv_weights_no_alias_witness :
    ((get_weights store0 layer0).2.2.mem (get_weights store0 layer0).1
        = store0.mem layer0.Wref)
    ∧ (((get_weights store0 layer0).2.2.write (get_weights store0 layer0).1
          (fun _ => 99)).mem layer0.Wref
        = (get_weights store0 layer0).2.2.mem layer0.Wref)
    ∧ ((update_weights (set_weights store0 layer0 1 0).2
          (set_weights store0 layer0 1 0).1 (fun _ => 1) (fun _ => 1)).mem 1
        = (set_weights store0 layer0 1 0).2.mem 1) := by
  have h := conv_weights_no_alias store0 layer0 (by exact ⟨by decide, by decide⟩)
    1 0 (by decide) (by decide)
  exact ⟨h.1.1, (h.2.2.1 (fun _ => 99)).1.1,
    (h.2.2.2.2.2.2 (fun _ => 1) (fun _ => 1)).1⟩

/-! ### The positional encoding of hw7 -/

/-- Embedding of `PosEncoding(t_len, d_model)` (hw7.py lines 127-132): over
the meshgrid `POS[pos, i] = pos`, `I[pos, i] = i` (default ij indexing),
the entry is `(1 - I % 2) * sin(POS / 10 ** (4 * I / d_model))
+ (I % 2) * cos(POS / 10 ** (4 * (I - 1) / d_model))`; the power is a real
power (dividing the integer tensor `4 * I` by the Python int `d_model` is
true float division) and `I - 1` is computed in the integers, hence the
real subtraction.  The grid holds positions `pos < t_len` and indices
`i < d_model`. -/
noncomputable def PosEncoding (t_len d_model : ℕ) (pos i : ℕ) : ℝ :=
  (1 - ((i % 2 : ℕ) : ℝ))
      * Real.sin ((pos : ℝ) / (10 : ℝ) ^ ((4 * (i : ℝ)) / (d_model : ℝ)))
    + ((i % 2 : ℕ) : ℝ)
      * Real.cos ((pos : ℝ) / (10 : ℝ) ^ ((4 * ((i : ℝ) - 1)) / (d_model : ℝ)))

/-- C7: the positional encoding equals `sin(pos / 10000 ^ (i / d_model))`
at even `i` and `cos(pos / 10000 ^ ((i - 1) / d_model))` at odd `i`
(since `10 ^ (4 i / d) = 10000 ^ (i / d)`); consequently the row at
`pos = 0` is 0 at every even index and 1 at every odd index. -/
theorem PosEncoding_formula (t_len d_model pos i : ℕ)
    (hpos : pos < t_len) (hi : i < d_model) :
    (i % 2 = 0 → PosEncoding t_len d_model pos i
        = Real.sin ((pos : ℝ) / (10000 : ℝ) ^ ((i : ℝ) / (d_model : ℝ))))
    ∧ (i % 2 = 1 → PosEncoding t_len d_model pos i
        = Real.cos ((pos : ℝ) / (10000 : ℝ) ^ (((i : ℝ) - 1) / (d_model : ℝ))))
    ∧ (pos = 0 → PosEncoding t_len d_model pos i
        = if i % 2 = 0 then 0 else 1) := by
  have hbase : (10000 : ℝ) = (10 : ℝ) ^ ((4 : ℕ) : ℝ) := by
    rw [Real.rpow_natCast]
    norm_num
  have hpow : ∀ r : ℝ, (10000 : ℝ) ^ (r / (d_model : ℝ))
      = (10 : ℝ) ^ (4 * r / (d_model : ℝ)) := by
    intro r
    rw [hbase, ← Real.rpow_mul (by norm_num : (0 : ℝ) ≤ 10)]
    norm_num [mul_div_assoc]
  refine ⟨?_, ?_, ?_⟩
  · intro he
    rw [hpow]
    simp [PosEncoding, he]
  · intro ho
    rw [hpow]
    simp [PosEncoding, ho]
  · intro hp
    subst hp
    rcases Nat.mod_two_eq_zero_or_one i with h | h <;>
      simp [PosEncoding, h]

/-- Witness for C7 at `t_len = 1`, `d_model = 2`, `pos = 0`, `i = 0`. -/
theorem PosEncoding_formula_witness :
    (0 % 2 = 0 → PosEncoding 1 2 0 0
        = Real.sin (((0 : ℕ) : ℝ) / (10000 : ℝ) ^ (((0 : ℕ) : ℝ) / ((2 : ℕ) : ℝ))))
    ∧ (0 % 2 = 1 → PosEncoding 1 2 0 0
        = Real.cos (((0 : ℕ) : ℝ) / (10000 : ℝ) ^ ((((0 : ℕ) : ℝ) - 1) / ((2 : ℕ) : ℝ))))
    ∧ ((0 : ℕ) = 0 → PosEncoding 1 2 0 0 = if 0 % 2 = 0 then 0 else 1) :=
  PosEncoding_formula 1 2 0 0 (by decide) (by decide)

/-! ### hw7: tensors with NaN propagation

The hw7 model works on 3-D float tensors (batch, seq, feature).  Values are
`Option ℚ`: `some q` is the finite float value `q` in exact arithmetic and
`none` is IEEE NaN, which propagates through every arithmetic operation.
The transcendental pieces of the model - the softmax exponential, the
`sqrt(d_K)` attention scale and the LayerNorm square root - are irrational,
so they appear as parameters (`ex`, `scale`, `sq`) of the embedded modules;
`nn.Dropout` is the identity in evaluation mode and is embedded as such. -/

/-- NaN-propagating addition. -/
def oadd : Option ℚ → Option ℚ → Option ℚ
  | some a, some b => some (a + b)
  | _, _ => none

/-- NaN-propagating multiplication (IEEE `NaN * 0 = NaN`, so `none` always
propagates). -/
def omul : Option ℚ → Option ℚ → Option ℚ
  | some a, some b => some (a * b)
  | _, _ => none

/-- NaN-propagating subtraction. -/
def osub : Option ℚ → Option ℚ → Option ℚ
  | some a, some b => some (a - b)
  | _, _ => none

/-- NaN-propagating division.  Division by a nonzero value; the 0/0 case of
softmax is handled at its call site. -/
def odiv : Option ℚ → Option ℚ → Option ℚ
  | some a, some b => some (a / b)
  | _, _ => none

/-- NaN-propagating sum over `k < n`. -/
def osum (n : ℕ) (f : ℕ → Option ℚ) : Option ℚ :=
  (List.range n).foldl (fun a k => oadd a (f k)) (some 0)

/-- A 3-D float tensor of shape (batch, seq, feat). -/
structure Tensor3 where
  batch : ℕ
  seq : ℕ
  feat : ℕ
  data : ℕ → ℕ → ℕ → Option ℚ

/-- Embedding of `nn.Linear(dIn, dOut)` applied over the last axis:
`out[p, t, j] = sum_k Wt[j, k] * x[p, t, k] + bs[j]`. -/
def linearT (dOut dIn : ℕ) (Wt : ℕ → ℕ → ℚ) (bs : ℕ → ℚ) (x : Tensor3) :
    Tensor3 :=
  ⟨x.batch, x.seq, dOut, fun p t j =>
    oadd (osum dIn fun k => omul (some (Wt j k)) (x.data p t k)) (some (bs j))⟩

/-- Elementwise addition of two tensors of equal shape. -/
def addT (x y : Tensor3) : Tensor3 :=
  ⟨x.batch, x.seq, x.feat, fun p t k => oadd (x.data p t k) (y.data p t k)⟩

/-- Embedding of `nn.ReLU`. -/
def reluT (x : Tensor3) : Tensor3 :=
  ⟨x.batch, x.seq, x.feat, fun p t k => (x.data p t k).map (fun a => max a 0)⟩

/-- Embedding of `nn.LayerNorm(d)` with affine parameters `γ`, `β` and
abstract square root `sq`:
`out[p, t, k] = γ k * (x[p, t, k] - μ) / sq (σ² + eps) + β k` with mean and
(biased) variance over the last axis. -/
def layerNormT (d : ℕ) (γ β : ℕ → ℚ) (eps : ℚ) (sq : ℚ → ℚ) (x : Tensor3) :
    Tensor3 :=
  ⟨x.batch, x.seq, x.feat, fun p t k =>
    let μ := (osum d fun j => x.data p t j).map (fun a => a / (d : ℚ))
    let σ2 := (osum d fun j =>
      omul (osub (x.data p t j) μ) (osub (x.data p t j) μ)).map
        (fun a => a / (d : ℚ))
    oadd (omul (some (γ k))
      (odiv (osub (x.data p t k) μ) (σ2.map fun v => sq (v + eps))))
      (some (β k))⟩

/-- A masked attention score: `fin q` is a finite score, `ninf` the negative
infinity written by `masked_fill`, `nan` an IEEE NaN score. -/
inductive FVal where
  | nan
  | ninf
  | fin (q : ℚ)
deriving DecidableEq

/-- View of a float value as a score. -/
def toFVal : Option ℚ → FVal
  | none => .nan
  | some q => .fin q

/-- The exponential of a score under the IEEE conventions used by softmax:
`exp(-inf) = 0`, `exp(NaN) = NaN`; on finite scores the abstract positive
exponential `ex`. -/
def fexp (ex : ℚ → ℚ) : FVal → Option ℚ
  | .nan => none
  | .ninf => some 0
  | .fin q => some (ex q)

/-- Parameters of `MultiHeadAttention(d_model, d_Q, d_K, d_V, numhead,
dropout)` (hw7.py lines 38-55): the four `nn.Linear` layers with their
biases, plus the abstract softmax exponential `ex` and the score scale
(`math.sqrt(d_K)`, irrational, hence a parameter). -/
structure MultiHeadAttention where
  d_model : ℕ
  numhead : ℕ
  d_Q : ℕ
  d_K : ℕ
  d_V : ℕ
  WQ : ℕ → ℕ → ℚ
  biasQ : ℕ → ℚ
  WK : ℕ → ℕ → ℚ
  biasK : ℕ → ℚ
  WV : ℕ → ℕ → ℚ
  biasV : ℕ → ℚ
  WO : ℕ → ℕ → ℚ
  biasO : ℕ → ℚ
  ex : ℚ → ℚ
  scale : ℚ

/-- `Q = W_Q(x_Q).view(batch, seq, numhead, d_Q).transpose(1, 2)`
(hw7.py line 62): head `h` of the projected query at position `t`. -/
def MultiHeadAttention.Qh (m : MultiHeadAttention) (x_Q : Tensor3) :
    ℕ → ℕ → ℕ → ℕ → Option ℚ := fun p h t q =>
  (linearT (m.d_Q * m.numhead) m.d_model m.WQ m.biasQ x_Q).data p t
    (h * m.d_Q + q)

/-- `K` (hw7.py line 63), as `Qh`. -/
def MultiHeadAttention.Kh (m : MultiHeadAttention) (x_K : Tensor3) :
    ℕ → ℕ → ℕ → ℕ → Option ℚ := fun p h s k =>
  (linearT (m.d_K * m.numhead) m.d_model m.WK m.biasK x_K).data p s
    (h * m.d_K + k)

/-- `V` (hw7.py line 64), as `Qh`. -/
def MultiHeadAttention.Vh (m : MultiHeadAttention) (x_V : Tensor3) :
    ℕ → ℕ → ℕ → ℕ → Option ℚ := fun p h s v =>
  (linearT (m.d_V * m.numhead) m.d_model m.WV m.biasV x_V).data p s
    (h * m.d_V + v)

/-- `scores = torch.matmul(Q, K.transpose(-2, -1)) / self.scale`
(hw7.py line 66); the contraction runs over the head dimension `d_Q`
(`torch.matmul` requires `d_Q = d_K`). -/
def MultiHeadAttention.scores (m : MultiHeadAttention) (x_Q x_K : Tensor3) :
    ℕ → ℕ → ℕ → ℕ → Option ℚ := fun p h t s =>
  (osum m.d_Q fun q => omul (m.Qh x_Q p h t q) (m.Kh x_K p h s q)).map
    (fun a => a / m.scale)

/-- The boolean mask of hw7.py lines 69-71: when `src_batch_lens` is given,
`mask[i, :, :, length:] = True`, i.e. every key position at index at least
`lens i` is masked, for every head and query position; with no lengths the
mask stays all-false. -/
def lensMask (lens : Option (ℕ → ℕ)) (p s : ℕ) : Bool :=
  match lens with
  | none => false
  | some L => decide (L p ≤ s)

/-- `scores.masked_fill(mask, float(-inf))` (hw7.py line 72). -/
def MultiHeadAttention.maskedScores (m : MultiHeadAttention)
    (x_Q x_K : Tensor3) (lens : Option (ℕ → ℕ)) :
    ℕ → ℕ → ℕ → ℕ → FVal := fun p h t s =>
  if lensMask lens p s then .ninf else toFVal (m.scores x_Q x_K p h t s)

/-- `attention = F.softmax(scores, dim=-1)` (hw7.py line 74): the key axis
has length `seq_len = x_Q.shape[1]`.  Under IEEE arithmetic `exp(-inf) = 0`;
a row whose exponentials sum to zero (an all-masked row) divides 0 by 0 and
yields NaN. -/
def MultiHeadAttention.attnWeights (m : MultiHeadAttention)
    (x_Q x_K : Tensor3) (lens : Option (ℕ → ℕ)) :
    ℕ → ℕ → ℕ → ℕ → Option ℚ := fun p h t s =>
  let e : ℕ → Option ℚ := fun k => fexp m.ex (m.maskedScores x_Q x_K lens p h t k)
  match osum x_Q.seq e with
  | none => none
  | some zv => if zv = 0 then none else (e s).map (fun a => a / zv)

/-- Embedding of `MultiHeadAttention.forward(x_Q, x_K, x_V, src_batch_lens)`
(hw7.py lines 57-82): projections, scaled scores, length masking, softmax
(`attnWeights`), dropout (identity in eval mode), the weighted sum with `V`
(line 77), head concatenation via `transpose(1, 2) ... view(batch, seq, -1)`
(line 79) and the output projection `W_O` (line 80). -/
def MultiHeadAttention.forward (m : MultiHeadAttention)
    (x_Q x_K x_V : Tensor3) (lens : Option (ℕ → ℕ)) : Tensor3 :=
  let batch_size := x_Q.batch
  let seq_len := x_Q.seq
  let attention := m.attnWeights x_Q x_K lens
  let outHeads : ℕ → ℕ → ℕ → ℕ → Option ℚ := fun p h t v =>
    osum seq_len fun s => omul (attention p h t s) (m.Vh x_V p h s v)
  let z : Tensor3 := ⟨batch_size, seq_len, m.d_V * m.numhead,
    fun p t c => outHeads p (c / m.d_V) t (c % m.d_V)⟩
  linearT m.d_model (m.d_V * m.numhead) m.WO m.biasO z

/-- Parameters of `TF_Encoder_Block(d_model, d_ff, numhead, dropout)`
(hw7.py lines 84-108): the attention module, the two feed-forward linear
layers, and the two LayerNorms with their affine parameters, `eps` and the
abstract square root `sq`. -/
structure TF_Encoder_Block where
  d_model : ℕ
  d_ff : ℕ
  attention : MultiHeadAttention
  ffW1 : ℕ → ℕ → ℚ
  ffb1 : ℕ → ℚ
  ffW2 : ℕ → ℕ → ℚ
  ffb2 : ℕ → ℚ
  g1 : ℕ → ℚ
  beta1 : ℕ → ℚ
  g2 : ℕ → ℚ
  beta2 : ℕ → ℚ
  eps : ℚ
  sq : ℚ → ℚ

/-- Embedding of `TF_Encoder_Block.forward(x, src_batch_lens)`
(hw7.py lines 110-119): self-attention, residual add and `norm1`, the
feed-forward network `Linear-ReLU-Dropout-Linear`, residual add and
`norm2`; dropout is the identity in eval mode. -/
def TF_Encoder_Block.forward (blk : TF_Encoder_Block) (x : Tensor3)
    (lens : Option (ℕ → ℕ)) : Tensor3 :=
  let att_out := blk.attention.forward x x x lens
  let x1 := layerNormT blk.d_model blk.g1 blk.beta1 blk.eps blk.sq
    (addT x att_out)
  let ff_out := linearT blk.d_model blk.d_ff blk.ffW2 blk.ffb2
    (reluT (linearT blk.d_ff blk.d_model blk.ffW1 blk.ffb1 x1))
  layerNormT blk.d_model blk.g2 blk.beta2 blk.eps blk.sq (addT x1 ff_out)

/-- A batch of token indices of shape (batch, seq). -/
structure TokenTensor where
  batch : ℕ
  seq : ℕ
  tok : ℕ → ℕ → ℕ

/-- Parameters of `TF_Encoder` (hw7.py lines 134-151): the embedding table,
the positional-encoding values (real-valued in the code, abstracted here to
exact rationals) and the `numlayer` encoder blocks. -/
structure TF_Encoder where
  d_model : ℕ
  src_embed : ℕ → ℕ → ℚ
  penc : ℕ → ℕ → ℚ
  encoder_layers : List TF_Encoder_Block

/-- Embedding of `TF_Encoder.forward(x, src_batch_lens)` (hw7.py lines
153-164): the tokens are embedded, dropout applied (identity in eval mode)
and the positional encoding added (lines 155-158); then the loop of lines
161-163 runs `out = encoder_layer(x, src_batch_lens)` for each block - each
block is applied to the SAME input `x` and only the last block's output is
kept.  With an empty block list `out` is never bound and the function
raises `NameError`, modelled by `none`. -/
def TF_Encoder.forward (enc : TF_Encoder) (x : TokenTensor)
    (lens : Option (ℕ → ℕ)) : Option Tensor3 :=
  let x0 : Tensor3 := ⟨x.batch, x.seq, enc.d_model,
    fun p t k => some (enc.src_embed (x.tok p t) k + enc.penc t k)⟩
  enc.encoder_layers.foldl (fun _ blk => some (blk.forward x0 lens)) none

/-- Modelled from the spec: the encoder stack as specified - the
`numlayer` blocks applied in sequence, the k-th block consuming the
(k-1)-th block's output and the first block consuming the embedded,
positionally-encoded input; this chaining is missing from the code, whose
loop (hw7.py lines 161-163) applies every block to the same input and keeps
only the last block's output. -/
def TF_Encoder.forwardChained (enc : TF_Encoder) (x : TokenTensor)
    (lens : Option (ℕ → ℕ)) : Option Tensor3 :=
  let x0 : Tensor3 := ⟨x.batch, x.seq, enc.d_model,
    fun p t k => some (enc.src_embed (x.tok p t) k + enc.penc t k)⟩
  if enc.encoder_layers.isEmpty then none
  else some (enc.encoder_layers.foldl (fun acc blk => blk.forward acc lens) x0)

/-! ### Masking and softmax of the attention layer -/

theorem osum_succ (n : ℕ) (f : ℕ → Option ℚ) :
    osum (n + 1) f = oadd (osum n f) (f n) := by
  simp [osum, List.range_succ]

theorem osum_eq (n : ℕ) (f : ℕ → Option ℚ) (g : ℕ → ℚ)
    (h : ∀ k < n, f k = some (g k)) :
    osum n f = some (∑ k ∈ Finset.range n, g k) := by
  induction n with
  | zero => simp [osum]
  | succ n ih =>
    rw [osum_succ, ih (fun k hk => h k (by omega)), h n (by omega)]
    simp [oadd, Finset.sum_range_succ]

theorem oadd_none_right (a : Option ℚ) : oadd a none = none := by
  cases a <;> rfl

theorem oadd_none_left (a : Option ℚ) : oadd none a = none := by
  cases a <;> rfl

theorem omul_none_left (a : Option ℚ) : omul none a = none := by
  cases a <;> rfl

theorem osum_eq_none (n k : ℕ) (f : ℕ → Option ℚ) (hk : k < n)
    (h : f k = none) : osum n f = none := by
  induction n with
  | zero => omega
  | succ n ih =>
    rw [osum_succ]
    rcases Nat.lt_succ_iff_lt_or_eq.mp hk with h2 | h2
    · rw [ih h2, oadd_none_left]
    · subst h2
      rw [h, oadd_none_right]

theorem oadd_isSome {a b : Option ℚ} (ha : a.isSome) (hb : b.isSome) :
    (oadd a b).isSome := by
  cases a with
  | none => simp at ha
  | some q =>
    cases b with
    | none => simp at hb
    | some r => rfl

theorem omul_isSome {a b : Option ℚ} (ha : a.isSome) (hb : b.isSome) :
    (omul a b).isSome := by
  cases a with
  | none => simp at ha
  | some q =>
    cases b with
    | none => simp at hb
    | some r => rfl

theorem osum_isSome (n : ℕ) (f : ℕ → Option ℚ)
    (h : ∀ k < n, (f k).isSome) : (osum n f).isSome := by
  induction n with
  | zero => rfl
  | succ n ih =>
    rw [osum_succ]
    exact oadd_isSome (ih fun k hk => h k (by omega)) (h n (by omega))

theorem linearT_isSome (dOut dIn : ℕ) (Wt : ℕ → ℕ → ℚ) (bs : ℕ → ℚ)
    (x : Tensor3) (hx : ∀ p t k, (x.data p t k).isSome) (p t j : ℕ) :
    ((linearT dOut dIn Wt bs x).data p t j).isSome := by
  refine oadd_isSome (osum_isSome _ _ fun k hk => ?_) rfl
  exact omul_isSome rfl (hx p t k)

theorem scores_isSome (m : MultiHeadAttention) (x_Q x_K : Tensor3)
    (hQ : ∀ p t k, (x_Q.data p t k).isSome)
    (hK : ∀ p t k, (x_K.data p t k).isSome) (p h t s : ℕ) :
    (m.scores x_Q x_K p h t s).isSome := by
  rw [MultiHeadAttention.scores]
  have h1 : (osum m.d_Q fun q => omul (m.Qh x_Q p h t q) (m.Kh x_K p h s q)).isSome := by
    refine osum_isSome _ _ fun q hq => ?_
    exact omul_isSome (linearT_isSome _ _ _ _ _ hQ _ _ _)
      (linearT_isSome _ _ _ _ _ hK _ _ _)
  rcases Option.isSome_iff_exists.mp h1 with ⟨q, hq⟩
  simp [hq]

/-- C3 (amended): with a lengths vector whose entry for batch element `i` is
at least 1 (and a nonempty key axis), the masked score at every key
position at index at least `L i` is negative infinity and its
softmax-normalized attention weight is exactly zero, for every head and
query position. -/
theorem attn_mask_zero (m : MultiHeadAttention) (x_Q x_K : Tensor3)
    (L : ℕ → ℕ) (hex : ∀ q, 0 < m.ex q)
    (hQ : ∀ p t k, (x_Q.data p t k).isSome)
    (hK : ∀ p t k, (x_K.data p t k).isSome)
    (i h t s : ℕ) (hn : 1 ≤ x_Q.seq) (hLi : 1 ≤ L i) (hs : L i ≤ s) :
    m.maskedScores x_Q x_K (some L) i h t s = .ninf
    ∧ m.attnWeights x_Q x_K (some L) i h t s = some 0 := by
  have hmask : ∀ s2, L i ≤ s2 →
      m.maskedScores x_Q x_K (some L) i h t s2 = .ninf := by
    intro s2 hs2
    simp [MultiHeadAttention.maskedScores, lensMask, hs2]
  have hsc := fun k => scores_isSome m x_Q x_K hQ hK i h t k
  have heSome : ∀ k, fexp m.ex (m.maskedScores x_Q x_K (some L) i h t k)
      = some ((fexp m.ex (m.maskedScores x_Q x_K (some L) i h t k)).getD 0) := by
    intro k
    cases hm : m.maskedScores x_Q x_K (some L) i h t k with
    | nan =>
      exfalso
      rw [MultiHeadAttention.maskedScores] at hm
      split at hm
      · exact absurd hm (by simp)
      · have := hsc k
        cases hsck : m.scores x_Q x_K i h t k with
        | none => rw [hsck] at this; simp at this
        | some q => rw [hsck] at hm; exact absurd hm (by simp [toFVal])
    | ninf => simp [fexp]
    | fin q => simp [fexp]
  have heNonneg : ∀ k,
      0 ≤ (fexp m.ex (m.maskedScores x_Q x_K (some L) i h t k)).getD 0 := by
    intro k
    cases hm : m.maskedScores x_Q x_K (some L) i h t k with
    | nan => simp [fexp]
    | ninf => simp [fexp]
    | fin q => simp [fexp]; exact le_of_lt (hex q)
  have he0pos :
      0 < (fexp m.ex (m.maskedScores x_Q x_K (some L) i h t 0)).getD 0 := by
    have hm0 : lensMask (some L) i 0 = false := by
      simp [lensMask]; omega
    cases hsck : m.scores x_Q x_K i h t 0 with
    | none => have := hsc 0; rw [hsck] at this; simp at this
    | some q =>
      rw [MultiHeadAttention.maskedScores, hm0]
      simp [hsck, toFVal, fexp]
      exact hex q
  have hZ := osum_eq x_Q.seq
    (fun k => fexp m.ex (m.maskedScores x_Q x_K (some L) i h t k))
    (fun k => (fexp m.ex (m.maskedScores x_Q x_K (some L) i h t k)).getD 0)
    (fun k _ => heSome k)
  have hZpos : 0 < ∑ k ∈ Finset.range x_Q.seq,
      (fexp m.ex (m.maskedScores x_Q x_K (some L) i h t k)).getD 0 :=
    Finset.sum_pos' (fun k _ => heNonneg k)
      ⟨0, Finset.mem_range.mpr (by omega), he0pos⟩
  refine ⟨hmask s hs, ?_⟩
  simp only [MultiHeadAttention.attnWeights]
  simp only [hZ]
  rw [if_neg (ne_of_gt hZpos)]
  rw [hmask s hs]
  simp [fexp]

theorem omul_none_right (a : Option ℚ) : omul a none = none := by
  cases a <;> rfl

/-- C10: when the lengths vector gives batch element `i` length 0, every
masked score of that element is negative infinity, the softmax over the key
axis yields NaN (modelled `none`) at every head, query and key position of
that element, and - for a nonempty key axis and at least one head
dimension - every output value of `forward` for that batch element is NaN;
the code has no guard for all-masked rows. -/
theorem attn_len_zero_nan (m : MultiHeadAttention) (x_Q x_K x_V : Tensor3)
    (L : ℕ → ℕ) (i : ℕ) (hL : L i = 0) :
    (∀ h t s, m.maskedScores x_Q x_K (some L) i h t s = .ninf)
    ∧ (∀ h t s, m.attnWeights x_Q x_K (some L) i h t s = none)
    ∧ (1 ≤ x_Q.seq → 1 ≤ m.d_V * m.numhead → ∀ t j,
        (m.forward x_Q x_K x_V (some L)).data i t j = none) := by
  have hmask : ∀ h t s, m.maskedScores x_Q x_K (some L) i h t s = .ninf := by
    intro h t s
    simp [MultiHeadAttention.maskedScores, lensMask, hL]
  have hattn : ∀ h t s, m.attnWeights x_Q x_K (some L) i h t s = none := by
    intro h t s
    simp only [MultiHeadAttention.attnWeights]
    have hZ := osum_eq x_Q.seq
      (fun k => fexp m.ex (m.maskedScores x_Q x_K (some L) i h t k))
      (fun _ => 0) (fun k _ => by
        show fexp m.ex (m.maskedScores x_Q x_K (some L) i h t k) = some 0
        rw [hmask h t k]
        rfl)
    simp only [hZ, Finset.sum_const_zero, if_pos]
  refine ⟨hmask, hattn, ?_⟩
  intro hn hdv t j
  have hout : ∀ h v,
      (osum x_Q.seq fun s => omul (m.attnWeights x_Q x_K (some L) i h t s)
        (m.Vh x_V i h s v)) = none := by
    intro h v
    refine osum_eq_none _ 0 _ (by omega) ?_
    rw [hattn h t 0, omul_none_left]
  simp only [MultiHeadAttention.forward, linearT]
  have main : (osum (m.d_V * m.numhead) fun c => omul (some (m.WO j c))
      (osum x_Q.seq fun s => omul (m.attnWeights x_Q x_K (some L) i (c / m.d_V) t s)
        (m.Vh x_V i (c / m.d_V) s (c % m.d_V)))) = none := by
    refine osum_eq_none _ 0 _ (by omega) ?_
    rw [hout, omul_none_right]
  rw [main, oadd_none_left]

/-- A concrete single-head attention module with computable parameters (the
abstract exponential taken constant 1, which is positive). -/
def mhaW : MultiHeadAttention :=
  ⟨1, 1, 1, 1, 1, fun _ _ => 0, fun _ => 0, fun _ _ => 0, fun _ => 0,
   fun _ _ => 1, fun _ => 0, fun _ _ => 1, fun _ => 0, fun _ => 1, 1⟩

/-- A concrete (1, 2, 1) input tensor of zeros. -/
def x3 : Tensor3 := ⟨1, 2, 1, fun _ _ _ => some 0⟩


/-! ### A concrete two-block encoder separating the loop from the chained
composition -/

/-- A two-dimensional single-head attention module whose projections are
all zero, so its output is the zero tensor on any all-finite input: with
`W_Q = W_K = W_V = W_O = 0` and all biases zero every score is `0`, the
softmax over a full (unmasked) row of an input of sequence length 1 is `1`,
and the final projection returns `0` everywhere. -/
def mha0 : MultiHeadAttention :=
  ⟨2, 1, 2, 2, 2, fun _ _ => 0, fun _ => 0, fun _ _ => 0, fun _ => 0,
   fun _ _ => 0, fun _ => 0, fun _ _ => 0, fun _ => 0, fun _ => 1, 1⟩

/-- A single token batch of shape (1, 1). -/
def tokA : TokenTensor := ⟨1, 1, fun _ _ => 0⟩

/-- Two `Tensor3` values with equal fields are equal. -/
theorem tensor3_ext {a b : Tensor3} (h1 : a.batch = b.batch)
    (h2 : a.seq = b.seq) (h3 : a.feat = b.feat) (h4 : a.data = b.data) :
    a = b := by
  cases a
  cases b
  simp_all

/-- The all-zero two-dimensional single-head attention module `mha0` with
the softmax exponential `ex` and score scale kept abstract, so facts proved
about it hold in particular of the real `exp` and `sqrt(d_K)`. -/
def mhaC (ex : ℚ → ℚ) (scale : ℚ) : MultiHeadAttention :=
  ⟨2, 1, 2, 2, 2, fun _ _ => 0, fun _ => 0, fun _ _ => 0, fun _ => 0,
   fun _ _ => 0, fun _ => 0, fun _ _ => 0, fun _ => 0, ex, scale⟩

/-- On an all-finite input of sequence length 1, the zero-weight attention
module outputs the zero tensor of width 2, for every exponential with
`ex 0 = 1` (true of the real `exp`) and every scale: all scores are
`0 / scale = 0`, the singleton softmax row is `ex 0 / ex 0 = 1` and the
zero-projected values make every output `0`. -/
theorem mhaC_forward_zero (ex : ℚ → ℚ) (scale : ℚ) (hex : ex 0 = 1)
    (x : Tensor3) (hseq : x.seq = 1)
    (hx : ∀ p t k, ∃ v, x.data p t k = some v) :
    (mhaC ex scale).forward x x x none
      = ⟨x.batch, x.seq, 2, fun _ _ _ => some 0⟩ := by
  have hQh : ∀ p h t q, (mhaC ex scale).Qh x p h t q = some 0 := by
    intro p h t q
    obtain ⟨v0, hv0⟩ := hx p t 0
    obtain ⟨v1, hv1⟩ := hx p t 1
    simp [MultiHeadAttention.Qh, linearT, mhaC, osum, List.range_succ,
      hv0, hv1, omul, oadd]
  have hKh : ∀ p h t q, (mhaC ex scale).Kh x p h t q = some 0 := by
    intro p h t q
    obtain ⟨v0, hv0⟩ := hx p t 0
    obtain ⟨v1, hv1⟩ := hx p t 1
    simp [MultiHeadAttention.Kh, linearT, mhaC, osum, List.range_succ,
      hv0, hv1, omul, oadd]
  have hVh : ∀ p h t q, (mhaC ex scale).Vh x p h t q = some 0 := by
    intro p h t q
    obtain ⟨v0, hv0⟩ := hx p t 0
    obtain ⟨v1, hv1⟩ := hx p t 1
    simp [MultiHeadAttention.Vh, linearT, mhaC, osum, List.range_succ,
      hv0, hv1, omul, oadd]
  have hsc : ∀ p h t s, (mhaC ex scale).scores x x p h t s = some 0 := by
    intro p h t s
    simp [MultiHeadAttention.scores, osum, List.range_succ, hQh, hKh,
      omul, oadd, show (mhaC ex scale).d_Q = 2 from rfl]
  have hw : ∀ p h t s, (mhaC ex scale).attnWeights x x none p h t s
      = some 1 := by
    intro p h t s
    simp [MultiHeadAttention.attnWeights, MultiHeadAttention.maskedScores,
      lensMask, hsc, toFVal, fexp, hseq, osum, List.range_succ, oadd,
      show (mhaC ex scale).ex = ex from rfl, hex]
  have hout : ∀ p t j, ((mhaC ex scale).forward x x x none).data p t j
      = some 0 := by
    intro p t j
    simp [MultiHeadAttention.forward, linearT, hw, hVh, hseq, osum,
      List.range_succ, omul, oadd, show (mhaC ex scale).d_V = 2 from rfl,
      show (mhaC ex scale).numhead = 1 from rfl,
      show (mhaC ex scale).WO = fun _ _ => (0 : ℚ) from rfl,
      show (mhaC ex scale).biasO = fun _ => (0 : ℚ) from rfl,
      show (mhaC ex scale).d_model = 2 from rfl]
  refine tensor3_ext rfl rfl rfl ?_
  funext p t j
  exact hout p t j

/-- An encoder block with zero attention and feed-forward weights, both
LayerNorm gains zero and second LayerNorm bias `(3/1000, 0)`: a constant
map to the row `(3/1000, 0)`.  `eps` is exactly the `nn.LayerNorm` default
`1e-5`; the square root `sq` is abstract and, the gains being zero, its
values never reach the output. -/
def blockAc (sq ex : ℚ → ℚ) (scale : ℚ) : TF_Encoder_Block :=
  ⟨2, 1, mhaC ex scale, fun _ _ => 0, fun _ => 0, fun _ _ => 0, fun _ => 0,
   fun _ => 0, fun _ => 0, fun _ => 0,
   fun k => if k = 0 then 3 / 1000 else 0, 1 / 100000, sq⟩

/-- An encoder block with zero attention and feed-forward weights, first
LayerNorm affine `γ = 77/10000`, `β = (-9/2500, 0)` and second LayerNorm
affine `γ = 1`, `β = 0`; `eps` is exactly the `nn.LayerNorm` default
`1e-5`.  Because `eps > 0`, LayerNorm is not scale-invariant, and this
block separates the rows `(9/1000, 0)` and `(3/1000, 0)`: the deviations
`9/2000` and `3/2000` give variances-plus-eps `121/4000000` and
`49/4000000`, whose true square roots are the rationals `11/2000` and
`7/2000`. -/
def blockBc (sq ex : ℚ → ℚ) (scale : ℚ) : TF_Encoder_Block :=
  ⟨2, 1, mhaC ex scale, fun _ _ => 0, fun _ => 0, fun _ _ => 0, fun _ => 0,
   fun _ => 77 / 10000, fun k => if k = 0 then -(9 / 2500) else 0,
   fun _ => 1, fun _ => 0, 1 / 100000, sq⟩

/-- A two-layer encoder stacking `blockAc` then `blockBc`, with embedding
`(9/1000, 0)` for every token and zero positional encoding. -/
def encC (sq ex : ℚ → ℚ) (scale : ℚ) : TF_Encoder :=
  ⟨2, fun _ k => if k = 0 then 9 / 1000 else 0, fun _ _ => 0,
   [blockAc sq ex scale, blockBc sq ex scale]⟩

/-- The embedded, positionally-encoded input of `encC` on `tokA`: the
single row `(9/1000, 0)`. -/
def x9 : Tensor3 :=
  ⟨1, 1, 2, fun _ _ k => some (if k = 0 then 9 / 1000 else 0)⟩

/-- The row `(3/1000, 0)`: output of `blockAc` on any all-finite seq-1
input. -/
def yA : Tensor3 :=
  ⟨1, 1, 2, fun _ _ k => some (if k = 0 then 3 / 1000 else 0)⟩

/-- The row `(9/11, -9/11)`: output of `blockBc` on `x9`. -/
def tCode : Tensor3 :=
  ⟨1, 1, 2, fun _ _ k => some (if k = 0 then 9 / 11 else -(9 / 11))⟩

/-- The row `(3/7, -3/7)`: output of `blockBc` on `yA`. -/
def tChain : Tensor3 :=
  ⟨1, 1, 2, fun _ _ k => some (if k = 0 then 3 / 7 else -(3 / 7))⟩

/-- Evaluation of `blockAc` on the embedded input: zero attention, LayerNorm
gains 0 and the second LayerNorm bias give the constant row `(3/1000, 0)`;
no value of `sq` reaches the output. -/
theorem blockAc_x9 (sq ex : ℚ → ℚ) (scale : ℚ) (hex : ex 0 = 1) :
    (blockAc sq ex scale).forward x9 none = yA := by
  simp only [TF_Encoder_Block.forward,
    show (blockAc sq ex scale).attention = mhaC ex scale from rfl,
    mhaC_forward_zero ex scale hex x9 rfl (fun p t k => ⟨_, rfl⟩)]
  refine tensor3_ext rfl rfl rfl ?_
  funext p t k
  simp [layerNormT, addT, linearT, reluT, osum, oadd, omul, osub, odiv,
    List.range_succ, x9, yA,
    show (blockAc sq ex scale).d_model = 2 from rfl,
    show (blockAc sq ex scale).d_ff = 1 from rfl,
    show (blockAc sq ex scale).g1 = fun _ => (0 : ℚ) from rfl,
    show (blockAc sq ex scale).beta1 = fun _ => (0 : ℚ) from rfl,
    show (blockAc sq ex scale).g2 = fun _ => (0 : ℚ) from rfl,
    show (blockAc sq ex scale).beta2
      = fun k => if k = 0 then (3 : ℚ) / 1000 else 0 from rfl,
    show (blockAc sq ex scale).eps = (1 : ℚ) / 100000 from rfl,
    show (blockAc sq ex scale).sq = sq from rfl,
    show (blockAc sq ex scale).ffW1 = fun _ _ => (0 : ℚ) from rfl,
    show (blockAc sq ex scale).ffb1 = fun _ => (0 : ℚ) from rfl,
    show (blockAc sq ex scale).ffW2 = fun _ _ => (0 : ℚ) from rfl,
    show (blockAc sq ex scale).ffb2 = fun _ => (0 : ℚ) from rfl]

/-- Evaluation of `blockBc` on the embedded row `(9/1000, 0)`: deviations
`±9/2000`, variance plus eps `121/4000000`, whose true square root
`11/2000` is the only value of `sq` used; the result is `(9/11, -9/11)`. -/
theorem blockBc_x9 (sq ex : ℚ → ℚ) (scale : ℚ)
    (hsq1 : sq (121 / 4000000) = 11 / 2000) (hex : ex 0 = 1) :
    (blockBc sq ex scale).forward x9 none = tCode := by
  simp only [TF_Encoder_Block.forward,
    show (blockBc sq ex scale).attention = mhaC ex scale from rfl,
    mhaC_forward_zero ex scale hex x9 rfl (fun p t k => ⟨_, rfl⟩)]
  refine tensor3_ext rfl rfl rfl ?_
  funext p t k
  simp [layerNormT, addT, linearT, reluT, osum, oadd, omul, osub, odiv,
    List.range_succ, x9, tCode,
    show (blockBc sq ex scale).d_model = 2 from rfl,
    show (blockBc sq ex scale).d_ff = 1 from rfl,
    show (blockBc sq ex scale).g1 = fun _ => (77 : ℚ) / 10000 from rfl,
    show (blockBc sq ex scale).beta1
      = fun k => if k = 0 then -((9 : ℚ) / 2500) else 0 from rfl,
    show (blockBc sq ex scale).g2 = fun _ => (1 : ℚ) from rfl,
    show (blockBc sq ex scale).beta2 = fun _ => (0 : ℚ) from rfl,
    show (blockBc sq ex scale).eps = (1 : ℚ) / 100000 from rfl,
    show (blockBc sq ex scale).sq = sq from rfl,
    show (blockBc sq ex scale).ffW1 = fun _ _ => (0 : ℚ) from rfl,
    show (blockBc sq ex scale).ffb1 = fun _ => (0 : ℚ) from rfl,
    show (blockBc sq ex scale).ffW2 = fun _ _ => (0 : ℚ) from rfl,
    show (blockBc sq ex scale).ffb2 = fun _ => (0 : ℚ) from rfl]
  norm_num [hsq1]
  split_ifs <;> norm_num [hsq1]

/-- Evaluation of `blockBc` on the row `(3/1000, 0)`: deviations `±3/2000`,
variance plus eps `49/4000000`, true square root `7/2000`; the result is
`(3/7, -3/7)`. -/
theorem blockBc_yA (sq ex : ℚ → ℚ) (scale : ℚ)
    (hsq2 : sq (49 / 4000000) = 7 / 2000) (hex : ex 0 = 1) :
    (blockBc sq ex scale).forward yA none = tChain := by
  simp only [TF_Encoder_Block.forward,
    show (blockBc sq ex scale).attention = mhaC ex scale from rfl,
    mhaC_forward_zero ex scale hex yA rfl (fun p t k => ⟨_, rfl⟩)]
  refine tensor3_ext rfl rfl rfl ?_
  funext p t k
  simp [layerNormT, addT, linearT, reluT, osum, oadd, omul, osub, odiv,
    List.range_succ, yA, tChain,
    show (blockBc sq ex scale).d_model = 2 from rfl,
    show (blockBc sq ex scale).d_ff = 1 from rfl,
    show (blockBc sq ex scale).g1 = fun _ => (77 : ℚ) / 10000 from rfl,
    show (blockBc sq ex scale).beta1
      = fun k => if k = 0 then -((9 : ℚ) / 2500) else 0 from rfl,
    show (blockBc sq ex scale).g2 = fun _ => (1 : ℚ) from rfl,
    show (blockBc sq ex scale).beta2 = fun _ => (0 : ℚ) from rfl,
    show (blockBc sq ex scale).eps = (1 : ℚ) / 100000 from rfl,
    show (blockBc sq ex scale).sq = sq from rfl,
    show (blockBc sq ex scale).ffW1 = fun _ _ => (0 : ℚ) from rfl,
    show (blockBc sq ex scale).ffb1 = fun _ => (0 : ℚ) from rfl,
    show (blockBc sq ex scale).ffW2 = fun _ _ => (0 : ℚ) from rfl,
    show (blockBc sq ex scale).ffb2 = fun _ => (0 : ℚ) from rfl]
  norm_num [hsq2]
  split_ifs <;> norm_num [hsq2]

/-- C1: refuted - `TF_Encoder.forward` does NOT apply its blocks in
sequence, each consuming the previous block's output.  The loop of hw7.py
lines 161-163 binds `out = encoder_layer(x, src_batch_lens)` with `x` never
updated, so every block is applied to the same embedded input and only the
last block's output survives.  The theorem holds for EVERY LayerNorm square
root `sq`, softmax exponential `ex` and score scale agreeing with the real
functions at the only points where their values matter:
`sqrt(121/4000000) = 11/2000`, `sqrt(49/4000000) = 7/2000` (both exact) and
`exp 0 = 1`; `eps` is the exact `nn.LayerNorm` default `1e-5` throughout,
and `eps > 0` makes LayerNorm scale-sensitive, which is what lets `blockBc`
separate the un-chained input row `(9/1000, 0)` from the chained
intermediate `(3/1000, 0)`.  The code's result has first output value
`9/11`; the specified chained composition (modelled by
`TF_Encoder.forwardChained`) yields `3/7`; the two results differ. -/
theorem encoder_loop_skips_chaining (sq ex : ℚ → ℚ) (scale : ℚ)
    (hsq1 : sq (121 / 4000000) = 11 / 2000)
    (hsq2 : sq (49 / 4000000) = 7 / 2000)
    (hex : ex 0 = 1) :
    ∃ t1 t2, (encC sq ex scale).forward tokA none = some t1
      ∧ (encC sq ex scale).forwardChained tokA none = some t2
      ∧ t1.data 0 0 0 = some (9 / 11)
      ∧ t2.data 0 0 0 = some (3 / 7)
      ∧ (encC sq ex scale).forward tokA none
          ≠ (encC sq ex scale).forwardChained tokA none := by
  have hx0 : (⟨tokA.batch, tokA.seq, (encC sq ex scale).d_model, fun p t k =>
      some ((encC sq ex scale).src_embed (tokA.tok p t) k
        + (encC sq ex scale).penc t k)⟩ : Tensor3) = x9 := by
    refine tensor3_ext rfl rfl rfl ?_
    funext p t k
    simp [encC, tokA, x9]
  have hfwd : (encC sq ex scale).forward tokA none
      = some ((blockBc sq ex scale).forward
          (⟨tokA.batch, tokA.seq, (encC sq ex scale).d_model, fun p t k =>
            some ((encC sq ex scale).src_embed (tokA.tok p t) k
              + (encC sq ex scale).penc t k)⟩ : Tensor3) none) := rfl
  have hchain : (encC sq ex scale).forwardChained tokA none
      = some ((blockBc sq ex scale).forward ((blockAc sq ex scale).forward
          (⟨tokA.batch, tokA.seq, (encC sq ex scale).d_model, fun p t k =>
            some ((encC sq ex scale).src_embed (tokA.tok p t) k
              + (encC sq ex scale).penc t k)⟩ : Tensor3) none) none) := rfl
  rw [hx0] at hfwd hchain
  rw [blockBc_x9 sq ex scale hsq1 hex] at hfwd
  rw [blockAc_x9 sq ex scale hex, blockBc_yA sq ex scale hsq2 hex] at hchain
  refine ⟨tCode, tChain, hfwd, hchain, by simp [tCode], by simp [tChain], ?_⟩
  rw [hfwd, hchain]
  intro hcontra
  have h2 : tCode = tChain := Option.some.inj hcontra
  have h3 := congrArg (fun tt => tt.data 0 0 0) h2
  simp [tCode, tChain] at h3
  norm_num at h3

/-- A computable stand-in for the LayerNorm square root, agreeing with the
real square root at both points where `encC`'s output depends on it. -/
def sqW : ℚ → ℚ := fun v => if v = 121 / 4000000 then 11 / 2000 else 7 / 2000

/-- Witness for C1 at the concrete instantiation: `sqW` for the square
root, the constant 1 for the exponential (`exp 0 = 1`) and scale 1. -/
theorem encoder_loop_skips_chaining_witness :
    ∃ t1 t2, (encC sqW (fun _ => 1) 1).forward tokA none = some t1
      ∧ (encC sqW (fun _ => 1) 1).forwardChained tokA none = some t2
      ∧ t1.data 0 0 0 = some (9 / 11)
      ∧ t2.data 0 0 0 = some (3 / 7)
      ∧ (encC sqW (fun _ => 1) 1).forward tokA none
          ≠ (encC sqW (fun _ => 1) 1).forwardChained tokA none :=
  encoder_loop_skips_chaining sqW (fun _ => 1) 1
    (by norm_num [sqW]) (by norm_num [sqW]) rfl

/-- The concrete two-layer encoder instance used by shape witnesses. -/
def encA : TF_Encoder := encC sqW (fun _ => 1) 1

/-- Witness for the amended C3 at a concrete input: sequence length 2,
length vector 1, the masked key position 1 gets weight exactly 0. -/
theorem attn_mask_zero_witness :
    mhaW.maskedScores x3 x3 (some fun _ => 1) 0 0 0 1 = .ninf
    ∧ mhaW.attnWeights x3 x3 (some fun _ => 1) 0 0 0 1 = some 0 :=
  attn_mask_zero mhaW x3 x3 (fun _ => 1)
    (fun _ => show (0 : ℚ) < 1 by norm_num)
    (fun _ _ _ => rfl) (fun _ _ _ => rfl) 0 0 0 1 (by decide) (by decide)
    (by decide)

/-- Counterexample to C3 as stated: with a lengths vector containing a zero
length, the attention weight at a masked key position of that batch element
is NaN (`none`), not zero - the claim fails without the `L i ≥ 1`
hypothesis. -/
theorem attn_mask_zero_cex :
    mhaW.attnWeights x3 x3 (some fun _ => 0) 0 0 0 0 = none
    ∧ ¬ (mhaW.attnWeights x3 x3 (some fun _ => 0) 0 0 0 0 = some 0) := by
  have h : mhaW.attnWeights x3 x3 (some fun _ => 0) 0 0 0 0 = none := by
    simp [MultiHeadAttention.attnWeights, MultiHeadAttention.maskedScores,
      lensMask, fexp, osum, List.range_succ, oadd, x3]
  exact ⟨h, by simp [h]⟩

/-- Witness for C10 at the same concrete input with length vector 0. -/
theorem attn_len_zero_nan_witness :
    (∀ h t s, mhaW.maskedScores x3 x3 (some fun _ => 0) 0 h t s = .ninf)
    ∧ (∀ h t s, mhaW.attnWeights x3 x3 (some fun _ => 0) 0 h t s = none)
    ∧ (1 ≤ x3.seq → 1 ≤ mhaW.d_V * mhaW.numhead → ∀ t j,
        (mhaW.forward x3 x3 x3 (some fun _ => 0)).data 0 t j = none) :=
  attn_len_zero_nan mhaW x3 x3 x3 (fun _ => 0) 0 rfl

/-! ### Shape preservation of the encoder stack -/

/-- A fold that replaces the accumulator at every step returns the image of
some member of a nonempty list. -/
theorem foldl_const_map {α β : Type} (f : α → Option β) :
    ∀ (l : List α) (a : Option β), l ≠ [] →
      ∃ b, b ∈ l ∧ l.foldl (fun _ c => f c) a = f b := by
  intro l
  induction l with
  | nil => intro a h; exact absurd rfl h
  | cons c cs ih =>
    intro a _
    cases cs with
    | nil => exact ⟨c, List.mem_singleton_self c, rfl⟩
    | cons d ds =>
      obtain ⟨b, hb, hfold⟩ := ih (f c) (by simp)
      exact ⟨b, List.mem_cons_of_mem c hb, hfold⟩

/-- C8: the encoder stack is shape-preserving.  `MultiHeadAttention.forward`
keeps the batch and sequence dimensions of `x_Q` and outputs `d_model`
features - equal to `x_Q`'s when `x_Q` has `d_model` features;
`TF_Encoder_Block.forward` preserves all three dimensions of its input; and
for any encoder with at least one block, `TF_Encoder.forward` succeeds and
its output has shape (batch, seq_len, d_model), the shape of the embedded
input. -/
theorem encoder_shape_preserving (m : MultiHeadAttention)
    (blk : TF_Encoder_Block) (enc : TF_Encoder)
    (x_Q x_K x_V x : Tensor3) (tok : TokenTensor)
    (lens : Option (ℕ → ℕ)) (hne : enc.encoder_layers ≠ []) :
    ((m.forward x_Q x_K x_V lens).batch = x_Q.batch
      ∧ (m.forward x_Q x_K x_V lens).seq = x_Q.seq
      ∧ (x_Q.feat = m.d_model → (m.forward x_Q x_K x_V lens).feat = x_Q.feat))
    ∧ ((blk.forward x lens).batch = x.batch
      ∧ (blk.forward x lens).seq = x.seq
      ∧ (blk.forward x lens).feat = x.feat)
    ∧ ∃ t, enc.forward tok lens = some t
        ∧ t.batch = tok.batch ∧ t.seq = tok.seq ∧ t.feat = enc.d_model := by
  refine ⟨⟨rfl, rfl, fun h => h.symm ▸ rfl⟩, ⟨rfl, rfl, rfl⟩, ?_⟩
  obtain ⟨b, _, hfold⟩ := foldl_const_map
    (fun blk2 => some (blk2.forward ⟨tok.batch, tok.seq, enc.d_model,
      fun p t k => some (enc.src_embed (tok.tok p t) k + enc.penc t k)⟩ lens))
    enc.encoder_layers none hne
  exact ⟨_, hfold, rfl, rfl, rfl⟩

/-- Witness for C8 at the concrete two-layer encoder. -/
theorem encoder_shape_preserving_witness :
    encA.encoder_layers ≠ [] ∧
    ∃ t, encA.forward tokA none = some t
      ∧ t.batch = tokA.batch ∧ t.seq = tokA.seq ∧ t.feat = encA.d_model :=
  ⟨by simp [encA, encC],
   (encoder_shape_preserving mha0 (blockAc sqW (fun _ => 1) 1) encA
     x3 x3 x3 x3 tokA none (by simp [encA, encC])).2.2⟩
